import Mathlib

/-!
Verification of the Toledo module-loading runtime and live configuration
store.  The definitions below are shallow embeddings of the JavaScript
sources: `updateObjectInPlace`, `loadConfig` and the file-change handler
from the config loader, and `validateManifest`, `sortModulesByDependency`,
`loadModule`, `initializeModule`, `loadAllModules` from
`src/server/handlers/modules.js`.  JavaScript objects are modelled as
association lists of string keys (JS objects have no duplicate keys),
JS `Map`s likewise; mutation is modelled by explicit state passing.
-/

set_option maxHeartbeats 1000000

namespace Toledo

/-- A JavaScript (JSON/TOML-shaped) runtime value.  `null` is JS `null`;
object fields are kept in insertion order, as JS objects do. -/
inductive JVal where
  | null
  | bool (b : Bool)
  | num (n : Int)
  | str (s : String)
  | arr (elems : List JVal)
  | obj (fields : List (String × JVal))
deriving Repr, Inhabited

/-- Lookup of a key in an association list: models reading a property of a
JS object, or `Map.get`.  Returns the first binding (JS objects and Maps
never hold duplicate keys). -/
def mapGet (l : List (String × α)) (k : String) : Option α :=
  (l.find? (fun p => p.1 == k)).map Prod.snd

/-- Model of `Map.has` / the JS `key in obj` test. -/
def mapHas (l : List (String × α)) (k : String) : Bool :=
  (mapGet l k).isSome

/-- Property assignment `obj[k] = v` / `Map.set`: an existing key keeps its
position, a new key is appended. -/
def mapSet (l : List (String × α)) (k : String) (v : α) : List (String × α) :=
  if mapHas l k then l.map (fun p => if p.1 == k then (k, v) else p)
  else l ++ [(k, v)]

/-- The key sequence of a JS object / Map (`Object.keys`, `Map.keys`). -/
def keysOf (l : List (String × α)) : List String :=
  l.map Prod.fst

/-! ### `updateObjectInPlace` (config loader)

```js
function updateObjectInPlace(target, source) {
  Object.keys(target).forEach(key => {
    if (!(key in source)) { delete target[key]; }
  });
  Object.keys(source).forEach(key => {
    const value = source[key];
    if (value && typeof value === 'object' && !Array.isArray(value) &&
      target[key] && typeof target[key] === 'object' && !Array.isArray(target[key])) {
      updateObjectInPlace(target[key], value);
    } else {
      target[key] = value;
    }
  });
}
```

In `JVal`, a value satisfying `v && typeof v === 'object' && !Array.isArray(v)`
is exactly an `.obj` (null, booleans, numbers, strings and arrays all fail
the test).  The first phase is a filter, the second a left fold over the
source's key/value pairs. -/

mutual

/-- Shallow embedding of `updateObjectInPlace`, acting on the field lists of
the target and source objects and returning the target's new field list.
The first `forEach` (deleting keys absent from the source) is the filter;
the second is `applySourcePairs`. -/
def updateObjectInPlace (target source : List (String × JVal)) :
    List (String × JVal) :=
  applySourcePairs (target.filter (fun p => mapHas source p.1)) source
termination_by (sizeOf source, 2)
decreasing_by exact Prod.Lex.right _ (by omega)

/-- The per-key branch of the second `forEach`: when the source value and
the target's current value at the key are both non-array objects, recurse
the merge; otherwise the source value overwrites. -/
def mergeStep (v : JVal) (tv : Option JVal) : JVal :=
  match v, tv with
  | JVal.obj sf, some (JVal.obj tf) => JVal.obj (updateObjectInPlace tf sf)
  | _, _ => v
termination_by (sizeOf v, 0)
decreasing_by exact Prod.Lex.left _ _ (by simp)

/-- The second `forEach` of `updateObjectInPlace`: fold the source's
key/value pairs into the target with `mergeStep` applied at each key. -/
def applySourcePairs (target : List (String × JVal)) :
    List (String × JVal) → List (String × JVal)
  | [] => target
  | (k, v) :: rest =>
    applySourcePairs (mapSet target k (mergeStep v (mapGet target k))) rest
termination_by l => (sizeOf l, 1)
decreasing_by
  · exact Prod.Lex.left _ _ (by simp; omega)
  · exact Prod.Lex.left _ _ (by simp)

end

/-! ### `loadConfig` and the file-change handler (config loader)

The global `configStore` maps absolute paths to `{ data, watcher }` entries;
we model it as state threaded through `loadConfig`, with the watched paths
kept alongside.  `path.resolve`, `fs.readFileSync`/`fs.existsSync` and
`toml.parse` are external collaborators, passed in as functions; a `none`
result models a missing file or a thrown error. -/

/-- The process-wide state of the config loader: the `configStore` cache
(path to live data) and the set of paths with a registered chokidar
watcher. -/
structure ConfigState where
  configStore : List (String × List (String × JVal))
  watchers : List String
deriving Repr

/-- A diagnostic written by the config loader's change handler. -/
inductive ConfigLog where
  | hotReloadFailed (path : String)
deriving Repr, DecidableEq

/-- Shallow embedding of `loadConfig(filePath)`.  Returns the new state and
`some data` on success; `none` models the initial-load error that is
rethrown to the caller. -/
def loadConfig (resolve : String → String) (readTomlFile : String → Option String)
    (parseToml : String → Option (List (String × JVal)))
    (st : ConfigState) (filePath : String) :
    ConfigState × Option (List (String × JVal)) :=
  let fullPath := resolve filePath
  match mapGet st.configStore fullPath with
  | some data => (st, some data)
  | none =>
    match readTomlFile fullPath with
    | none => (st, none)
    | some tomlString =>
      match parseToml tomlString with
      | none => (st, none)
      | some configData =>
        ({ configStore := mapSet st.configStore fullPath configData,
           watchers := st.watchers ++ [fullPath] },
         some configData)

/-- Shallow embedding of the `watcher.on('change')` callback: re-read and
re-parse the file, merging into the live object on success; any error is
caught, logged, and leaves the live data untouched. -/
def onConfigChange (readTomlFile : String → Option String)
    (parseToml : String → Option (List (String × JVal)))
    (fullPath : String) (configData : List (String × JVal)) :
    List (String × JVal) × List ConfigLog :=
  match readTomlFile fullPath with
  | none => (configData, [ConfigLog.hotReloadFailed fullPath])
  | some s =>
    match parseToml s with
    | none => (configData, [ConfigLog.hotReloadFailed fullPath])
    | some updatedConfig => (updateObjectInPlace configData updatedConfig, [])

/-! ### The module loader (`src/server/handlers/modules.js`)

`semver.satisfies(this.platformVersion, manifest.target_platform)` is an
external library call, abstracted as a boolean-valued parameter
`satisfies`.  Manifest fields are JS property reads: `none` models a
missing property (`undefined`). -/

/-- One entry of a manifest's `dependencies` array. -/
structure Dep where
  name : String
  optional : Bool
deriving Repr, DecidableEq

/-- The `HeliactylModule` manifest object.  Only the fields the loader
reads are modelled; each is `none` when the property is absent. -/
structure Manifest where
  name : Option JVal
  version : Option JVal
  api_level : Option JVal
  target_platform : Option JVal
  dependencies : Option (List Dep)

/-- JS truthiness of a property read; a missing property (`undefined`),
`null`, `false`, `0`, and the empty string are falsy. -/
def truthy : Option JVal → Bool
  | none => false
  | some JVal.null => false
  | some (JVal.bool b) => b
  | some (JVal.num n) => n != 0
  | some (JVal.str s) => s != ""
  | some (JVal.arr _) => true
  | some (JVal.obj _) => true

/-- JS numeric coercion for the comparison `manifest.api_level >
this.apiLevel`; `none` models NaN.  Coercion of strings to numbers is not
modelled (the claims under study pin `api_level` to an integer). -/
def jsToNumber : Option JVal → Option Int
  | some (JVal.num n) => some n
  | some (JVal.bool b) => some (if b then 1 else 0)
  | some JVal.null => some 0
  | _ => none

/-- JS `v > a` with `a` a number: false when the left side coerces to NaN. -/
def jsGtNum (v : Option JVal) (a : Int) : Bool :=
  match jsToNumber v with
  | some n => a < n
  | none => false

/-- Shallow embedding of `validateManifest`: required-field truthiness
checks in source order, then the API-level check, then the platform
(semver) check, short-circuiting on the first failure. -/
def validateManifest (apiLevel : Int) (satisfies : Option JVal → Bool)
    (manifest : Option Manifest) : Bool :=
  match manifest with
  | none => false
  | some m =>
    if !truthy m.name then false
    else if !truthy m.version then false
    else if !truthy m.api_level then false
    else if !truthy m.target_platform then false
    else if jsGtNum m.api_level apiLevel then false
    else if !satisfies m.target_platform then false
    else true

/-- What `require(modulePath)` yields for a candidate: the manifest object
(if the `HeliactylModule` export is present), whether a callable `load`
export exists, and whether `await load(app, db)` completes without
throwing. -/
structure ModuleExports where
  heliactylModule : Option Manifest
  hasLoadFunction : Bool
  loadSucceeds : Bool

/-- A registry entry created by `loadModule` (the `path` field of the
source, unused by any later logic, is omitted). -/
structure ModuleRecord where
  id : String
  exports : ModuleExports
  manifest : Manifest

/-- The registry `this.moduleRegistry`, a JS `Map` keyed by module id. -/
abbrev Registry := List (String × ModuleRecord)

/-- Shallow embedding of `loadModule`: `none` for `exports?` models
`require` throwing (caught, module rejected).  On success the record is
stored in the registry via `Map.set`. -/
def loadModule (apiLevel : Int) (satisfies : Option JVal → Bool)
    (reg : Registry) (moduleId : String) (exports? : Option ModuleExports) :
    Registry × Bool :=
  match exports? with
  | none => (reg, false)
  | some ex =>
    match ex.heliactylModule with
    | none => (reg, false)
    | some mf =>
      if !validateManifest apiLevel satisfies (some mf) then (reg, false)
      else if !ex.hasLoadFunction then (reg, false)
      else (mapSet reg moduleId { id := moduleId, exports := ex, manifest := mf },
            true)

/-- A diagnostic emitted by `sortModulesByDependency` through the logger. -/
inductive LogEvent where
  | circularDependency (moduleId : String)
  | optionalDepMissing (depName moduleId : String)
  | requiredDepMissing (depName moduleId : String)
deriving Repr, DecidableEq

/-- The mutable state of `sortModulesByDependency`: the `visited` set, the
`sorted` output array, and the logger trace.  (`visited` and `sorted`
receive the same appends; both are kept to mirror the source.)  The
`visiting` set has strict stack discipline in the source — added on entry
to `visit`, deleted before returning — so it is passed as a parameter of
`visit` below. -/
structure SortSt where
  visited : List String
  sorted : List String
  log : List LogEvent
deriving Repr, DecidableEq

/-- The dependency list `visit` iterates over: `moduleMap.get(moduleId)`
followed by the truthiness test `module && module.manifest.dependencies`
(`none` when the module is absent or declares no dependencies array). -/
def moduleDeps (mm : Registry) (moduleId : String) : Option (List Dep) :=
  match mapGet mm moduleId with
  | some r => r.manifest.dependencies
  | none => none

/-- Shallow embedding of the inner `visit(moduleId)` of
`sortModulesByDependency`.  The `visiting` set has strict stack discipline
in the source (added on entry, deleted before the post-order append), so it
is a plain parameter here.  The `fuel` argument only serves Lean's
termination checker; `sortFuel` below is always sufficient (no run with
that fuel ever reaches the `0` case, as the permutation theorem shows).
The dependency loop is the inner fold. -/
def visit (mm : Registry) : Nat → List String → String → SortSt → SortSt
  | 0, _, _, st => st
  | fuel + 1, visiting, moduleId, st =>
    if st.visited.contains moduleId then st
    else if visiting.contains moduleId then
      { st with log := st.log ++ [LogEvent.circularDependency moduleId] }
    else
      let st1 :=
        match moduleDeps mm moduleId with
        | some deps =>
          deps.foldl (fun (st : SortSt) (dep : Dep) =>
            if mapHas mm dep.name then
              visit mm fuel (moduleId :: visiting) dep.name st
            else if dep.optional then
              { st with log := st.log ++ [LogEvent.optionalDepMissing dep.name moduleId] }
            else
              { st with log := st.log ++ [LogEvent.requiredDepMissing dep.name moduleId] })
            st
        | none => st
      { st1 with visited := st1.visited ++ [moduleId],
                 sorted := st1.sorted ++ [moduleId] }

/-- The `for (const dep of module.manifest.dependencies)` loop of `visit`,
as a standalone function: a missing dependency is logged (warn if
optional, error if required) and skipped; a present one is visited
recursively with the module pushed on the visiting stack. -/
def visitDeps (mm : Registry) (fuel : Nat) (visiting : List String)
    (moduleId : String) (deps : List Dep) (st : SortSt) : SortSt :=
  deps.foldl (fun (st : SortSt) (dep : Dep) =>
    if mapHas mm dep.name then visit mm fuel visiting dep.name st
    else if dep.optional then
      { st with log := st.log ++ [LogEvent.optionalDepMissing dep.name moduleId] }
    else
      { st with log := st.log ++ [LogEvent.requiredDepMissing dep.name moduleId] })
    st

theorem visit_zero (mm : Registry) (visiting : List String) (m : String)
    (st : SortSt) : visit mm 0 visiting m st = st := rfl

theorem visit_succ (mm : Registry) (fuel : Nat) (visiting : List String)
    (moduleId : String) (st : SortSt) :
    visit mm (fuel + 1) visiting moduleId st =
      if st.visited.contains moduleId then st
      else if visiting.contains moduleId then
        { st with log := st.log ++ [LogEvent.circularDependency moduleId] }
      else
        let st1 :=
          match moduleDeps mm moduleId with
          | some deps => visitDeps mm fuel (moduleId :: visiting) moduleId deps st
          | none => st
        { st1 with visited := st1.visited ++ [moduleId],
                   sorted := st1.sorted ++ [moduleId] } := rfl

theorem visitDeps_nil (mm : Registry) (fuel : Nat) (visiting : List String)
    (moduleId : String) (st : SortSt) :
    visitDeps mm fuel visiting moduleId [] st = st := rfl

theorem visitDeps_cons (mm : Registry) (fuel : Nat) (visiting : List String)
    (moduleId : String) (dep : Dep) (rest : List Dep) (st : SortSt) :
    visitDeps mm fuel visiting moduleId (dep :: rest) st =
      visitDeps mm fuel visiting moduleId rest
        (if mapHas mm dep.name then visit mm fuel visiting dep.name st
         else if dep.optional then
           { st with log := st.log ++ [LogEvent.optionalDepMissing dep.name moduleId] }
         else
           { st with log := st.log ++ [LogEvent.requiredDepMissing dep.name moduleId] }) := rfl

/-- Fuel that always suffices for `visit`: more than the number of registry
keys, the maximum depth of the `visiting` stack. -/
def sortFuel (mm : Registry) : Nat := mm.length + 1

/-- Full final state of `sortModulesByDependency`: the `for (const moduleId
of moduleMap.keys())` loop over the fresh visited/visiting/sorted state. -/
def sortModulesSt (mm : Registry) : SortSt :=
  (keysOf mm).foldl (fun st k => visit mm (sortFuel mm) [] k st)
    { visited := [], sorted := [], log := [] }

/-- The return value of `sortModulesByDependency` (its `sorted` array). -/
def sortModulesByDependency (mm : Registry) : List String :=
  (sortModulesSt mm).sorted

/-- Shallow embedding of `initializeModule`: looks the module up in the
registry, calls its `load` entry point, and on success stores it in
`loadedModules`; a thrown error is caught and leaves the loaded map
unchanged. -/
def initializeModule (reg : Registry)
    (loaded : List (String × ModuleRecord)) (moduleId : String) :
    List (String × ModuleRecord) × Bool :=
  match mapGet reg moduleId with
  | none => (loaded, false)
  | some r =>
    if r.exports.loadSucceeds then (mapSet loaded moduleId r, true)
    else (loaded, false)

/-- The registry produced by the `loadModule` loop of `loadAllModules`,
starting from the empty `moduleRegistry`.  `discovered` pairs each
discovered module id with what `require` yields for it. -/
def buildRegistry (apiLevel : Int) (satisfies : Option JVal → Bool)
    (discovered : List (String × Option ModuleExports)) : Registry :=
  discovered.foldl (fun reg p => (loadModule apiLevel satisfies reg p.1 p.2).1) []

/-- The initialization loop of `loadAllModules`: run `initializeModule`
over an id sequence, accumulating `this.loadedModules` (empty at boot). -/
def initializeAll (reg : Registry) (order : List String) :
    List (String × ModuleRecord) :=
  order.foldl (fun ld id => (initializeModule reg ld id).1) []

/-- Shallow embedding of `loadAllModules`: load every discovered candidate,
sort the registry by dependency, initialize in sorted order, and return
the loaded-modules map. -/
def loadAllModules (apiLevel : Int) (satisfies : Option JVal → Bool)
    (discovered : List (String × Option ModuleExports)) :
    List (String × ModuleRecord) :=
  let reg := buildRegistry apiLevel satisfies discovered
  initializeAll reg (sortModulesByDependency reg)

/-- Predicate: `x` occupies a strictly earlier position than `y` in `l`. -/
def precedes (l : List String) (x y : String) : Prop :=
  x ∈ l ∧ y ∈ l ∧ l.indexOf x < l.indexOf y

instance precedesDecidable (l : List String) (x y : String) :
    Decidable (precedes l x y) :=
  inferInstanceAs (Decidable (x ∈ l ∧ y ∈ l ∧ l.indexOf x < l.indexOf y))

/-- The dependency edge relation of a registry: `a` declares a dependency
named `b`, and `b` is present in the registry. -/
def depEdge (reg : Registry) (a b : String) : Prop :=
  ∃ r deps d, mapGet reg a = some r ∧ r.manifest.dependencies = some deps ∧
    d ∈ deps ∧ d.name = b ∧ mapHas reg b = true

/-- The registry's dependency graph (over registered modules) has no
cycle. -/
def Acyclic (reg : Registry) : Prop :=
  ∀ x, ¬ Relation.TransGen (depEdge reg) x x

/-! ### Basic association-list lemmas -/

theorem mapGet_nil (k : String) : mapGet ([] : List (String × α)) k = none := rfl

theorem mapGet_cons (p : String × α) (l : List (String × α)) (k : String) :
    mapGet (p :: l) k = if p.1 == k then some p.2 else mapGet l k := by
  simp only [mapGet, List.find?_cons]
  cases h : (p.1 == k) <;> simp [h]

theorem mapGet_append (l₁ l₂ : List (String × α)) (k : String) :
    mapGet (l₁ ++ l₂) k =
      match mapGet l₁ k with
      | some v => some v
      | none => mapGet l₂ k := by
  induction l₁ with
  | nil => simp [mapGet_nil]
  | cons p l ih =>
    rw [List.cons_append, mapGet_cons, mapGet_cons]
    cases h : (p.1 == k) <;> simp [ih]

theorem mapGet_eq_some_mem {l : List (String × α)} {k : String} {v : α}
    (h : mapGet l k = some v) : (k, v) ∈ l := by
  induction l with
  | nil => simp [mapGet_nil] at h
  | cons p l ih =>
    rw [mapGet_cons] at h
    cases hp : (p.1 == k) with
    | true =>
      rw [hp] at h
      simp only [if_pos rfl] at h
      have : p = (k, v) := by
        cases p with
        | mk a b =>
          simp at hp h
          simp [hp, h]
      simp [this]
    | false =>
      rw [hp] at h
      simp only [Bool.false_eq_true, if_neg] at h
      exact List.mem_cons_of_mem _ (ih h)

theorem mapGet_isSome_iff {l : List (String × α)} {k : String} :
    (mapGet l k).isSome = true ↔ k ∈ keysOf l := by
  induction l with
  | nil => simp [mapGet_nil, keysOf]
  | cons p l ih =>
    rw [mapGet_cons]
    cases hp : (p.1 == k) with
    | true =>
      simp only [if_pos rfl]
      simp at hp
      simp [keysOf, hp]
    | false =>
      simp only [Bool.false_eq_true, if_neg]
      simp at hp
      simp [keysOf] at ih ⊢
      constructor
      · intro h; exact Or.inr (ih.mp h)
      · intro h
        rcases h with h | h
        · exact absurd h.symm hp
        · exact ih.mpr h

theorem mapGet_eq_none_iff {l : List (String × α)} {k : String} :
    mapGet l k = none ↔ k ∉ keysOf l := by
  rw [← mapGet_isSome_iff]
  cases h : mapGet l k <;> simp [h]

theorem mapHas_iff_mem_keys {l : List (String × α)} {k : String} :
    mapHas l k = true ↔ k ∈ keysOf l := by
  unfold mapHas; exact mapGet_isSome_iff

theorem mapGet_mapSet_self (l : List (String × α)) (k : String) (v : α) :
    mapGet (mapSet l k v) k = some v := by
  unfold mapSet
  by_cases h : mapHas l k = true
  · rw [if_pos h]
    unfold mapHas at h
    induction l with
    | nil => simp [mapGet_nil] at h
    | cons p l ih =>
      rw [mapGet_cons] at h
      cases hp : (p.1 == k) with
      | true =>
        simp only [List.map_cons, hp, if_pos rfl]
        rw [mapGet_cons]
        simp
      | false =>
        rw [hp] at h
        simp only [Bool.false_eq_true, if_neg] at h
        simp only [List.map_cons, hp]
        rw [if_neg (by simp)]
        rw [mapGet_cons, if_neg (by simp [hp])]
        exact ih h
  · rw [if_neg h]
    rw [mapGet_append]
    have hn : mapGet l k = none := by
      unfold mapHas at h
      cases hg : mapGet l k
      · rfl
      · exact absurd (by simp [hg]) h
    rw [hn]
    rw [mapGet_cons]
    simp

theorem mapGet_map_replace (l : List (String × α)) {k k' : String} (v : α)
    (h : k' ≠ k) :
    mapGet (l.map (fun p => if p.1 == k then (k, v) else p)) k' = mapGet l k' := by
  induction l with
  | nil => simp
  | cons p l ih =>
    simp only [List.map_cons]
    cases hp : (p.1 == k) with
    | true =>
      rw [if_pos (by simp [hp])]
      rw [mapGet_cons, mapGet_cons]
      simp at hp
      rw [hp]
      have hkk : (k == k') = false := by
        simp
        intro hx; exact h hx.symm
      rw [hkk]
      simp only [Bool.false_eq_true, if_neg, if_false]
      exact ih
    | false =>
      rw [if_neg (by simp [hp])]
      rw [mapGet_cons, mapGet_cons]
      cases hq : (p.1 == k') with
      | true => rw [if_pos (by simp_all), if_pos (by simp_all)]
      | false =>
        rw [if_neg (by simp [hq]), if_neg (by simp [hq])]
        exact ih

theorem mapGet_mapSet_ne (l : List (String × α)) {k k' : String} (v : α)
    (h : k' ≠ k) : mapGet (mapSet l k v) k' = mapGet l k' := by
  unfold mapSet
  by_cases hh : mapHas l k = true
  · rw [if_pos hh]
    exact mapGet_map_replace l v h
  · rw [if_neg hh, mapGet_append]
    cases hg : mapGet l k'
    · rw [mapGet_cons]
      have hkk : (k == k') = false := by
        simp
        intro hx; exact h hx.symm
      rw [hkk]
      simp [mapGet_nil]
    · simp

theorem keysOf_mapSet_present (l : List (String × α)) (k : String) (v : α)
    (h : mapHas l k = true) : keysOf (mapSet l k v) = keysOf l := by
  unfold mapSet
  rw [if_pos h]
  unfold keysOf
  rw [List.map_map]
  apply List.map_congr_left
  intro p _
  simp only [Function.comp]
  cases hp : (p.1 == k) with
  | true => simp at hp; rw [if_pos (by simp [hp])]; simp [hp]
  | false => rw [if_neg (by simp [hp])]

theorem keysOf_mapSet_absent (l : List (String × α)) (k : String) (v : α)
    (h : ¬ mapHas l k = true) : keysOf (mapSet l k v) = keysOf l ++ [k] := by
  unfold mapSet
  rw [if_neg h]
  simp [keysOf]

theorem keysOf_mapSet_nodup (l : List (String × α)) (k : String) (v : α)
    (h : (keysOf l).Nodup) : (keysOf (mapSet l k v)).Nodup := by
  by_cases hh : mapHas l k = true
  · rw [keysOf_mapSet_present _ _ _ hh]; exact h
  · rw [keysOf_mapSet_absent _ _ _ hh]
    have hk : k ∉ keysOf l := by
      intro hmem
      exact hh (mapHas_iff_mem_keys.mpr hmem)
    simp [List.nodup_append, h, hk]

/-! ### Claims C4, C5, C10 -/

/-- C4: for every path whose first load succeeded, a subsequent call of
`loadConfig` with the same path returns the identical cached object and
leaves the loader state unchanged — the cache branch is taken, so the file
is not re-parsed and no second watcher is registered. -/
theorem c4_loadConfig_cached (resolve : String → String)
    (readTomlFile : String → Option String)
    (parseToml : String → Option (List (String × JVal)))
    (st st1 : ConfigState) (filePath : String) (d : List (String × JVal))
    (h : loadConfig resolve readTomlFile parseToml st filePath = (st1, some d)) :
    loadConfig resolve readTomlFile parseToml st1 filePath = (st1, some d) := by
  simp only [loadConfig] at h ⊢
  cases hg : mapGet st.configStore (resolve filePath) with
  | some data =>
    simp only [hg, Prod.mk.injEq, Option.some.injEq] at h
    obtain ⟨h1, h2⟩ := h
    subst h1
    subst h2
    simp [hg]
  | none =>
    simp only [hg] at h
    cases hr : readTomlFile (resolve filePath) with
    | none => simp only [hr] at h; simp at h
    | some ts =>
      simp only [hr] at h
      cases hp : parseToml ts with
      | none => simp only [hp] at h; simp at h
      | some cd =>
        simp only [hp, Prod.mk.injEq, Option.some.injEq] at h
        obtain ⟨h1, h2⟩ := h
        subst h2
        rw [← h1]
        simp [mapGet_mapSet_self]

/-- C5: when a reload attempt fails (the file read or the TOML parse
throws), the change handler logs the failure and leaves the live object
exactly as it was; the handler is total, so the failure does not
propagate. -/
theorem c5_reload_failure_preserves_config
    (readTomlFile : String → Option String)
    (parseToml : String → Option (List (String × JVal)))
    (fullPath : String) (configData : List (String × JVal))
    (h : readTomlFile fullPath = none ∨
      ∃ s, readTomlFile fullPath = some s ∧ parseToml s = none) :
    onConfigChange readTomlFile parseToml fullPath configData =
      (configData, [ConfigLog.hotReloadFailed fullPath]) := by
  unfold onConfigChange
  rcases h with h | ⟨s, hs, hp⟩
  · rw [h]
  · simp [hs, hp]

/-- C10: `validateManifest` rejects every manifest in which any of the four
required fields is falsy — in particular `api_level` equal to the integer
`0` or an empty string for `name`, `version`, `target_platform` — exactly
as if the field were missing. -/
theorem c10_validateManifest_rejects_falsy (apiLevel : Int)
    (satisfies : Option JVal → Bool) (m : Manifest)
    (h : truthy m.name = false ∨ truthy m.version = false ∨
      truthy m.api_level = false ∨ truthy m.target_platform = false) :
    validateManifest apiLevel satisfies (some m) = false := by
  unfold validateManifest
  rcases h with h | h | h | h <;> simp [h]

/-- Witness for C4 at a concrete first load into an empty store. -/
theorem c4_witness :
    loadConfig (fun s => s) (fun _ => some "x")
      (fun _ => some [("a", JVal.num 1)])
      { configStore := [("config.toml", [("a", JVal.num 1)])],
        watchers := ["config.toml"] }
      "config.toml" =
    ({ configStore := [("config.toml", [("a", JVal.num 1)])],
       watchers := ["config.toml"] },
     some [("a", JVal.num 1)]) :=
  c4_loadConfig_cached (fun s => s) (fun _ => some "x")
    (fun _ => some [("a", JVal.num 1)])
    { configStore := [], watchers := [] } _ "config.toml" _ (by rfl)

/-- Witness for C5: a failing read leaves a concrete live object intact. -/
theorem c5_witness :
    onConfigChange (fun _ => none) (fun _ => none) "config.toml"
      [("a", JVal.num 1)] =
    ([("a", JVal.num 1)], [ConfigLog.hotReloadFailed "config.toml"]) :=
  c5_reload_failure_preserves_config (fun _ => none) (fun _ => none)
    "config.toml" [("a", JVal.num 1)] (Or.inl rfl)

/-- Witness for C10: a manifest with `api_level` equal to the integer 0 and
every other field valid is rejected. -/
theorem c10_witness :
    truthy (some (JVal.num 0)) = false ∧
    validateManifest 3 (fun _ => true)
      (some { name := some (JVal.str "m"), version := some (JVal.str "1.0.0"),
              api_level := some (JVal.num 0),
              target_platform := some (JVal.str "1.x"),
              dependencies := none }) = false :=
  ⟨rfl, c10_validateManifest_rejects_falsy 3 (fun _ => true) _
    (Or.inr (Or.inr (Or.inl rfl)))⟩

/-! ### Structure of `visit`: frame and progress lemmas -/

/-- Frame property of one `visit` / `visitDeps` call: the call only appends
to `visited`, `sorted` and `log`, appends the same fresh registry keys to
`visited` and `sorted`, and never appends a key that is on the `visiting`
stack or already visited. -/
def FrameOk (mm : Registry) (visiting : List String) (st st' : SortSt) : Prop :=
  ∃ delta lg,
    st' = { visited := st.visited ++ delta, sorted := st.sorted ++ delta,
            log := st.log ++ lg } ∧
    delta.Nodup ∧
    ∀ x ∈ delta, x ∈ keysOf mm ∧ x ∉ st.visited ∧ x ∉ visiting

theorem frame_refl (mm : Registry) (visiting : List String) (st : SortSt) :
    FrameOk mm visiting st st :=
  ⟨[], [], by simp, List.nodup_nil, by simp⟩

theorem frame_log (mm : Registry) (visiting : List String) (st : SortSt)
    (lg : List LogEvent) :
    FrameOk mm visiting st { st with log := st.log ++ lg } :=
  ⟨[], lg, by simp, List.nodup_nil, by simp⟩

theorem frame_trans {mm : Registry} {visiting : List String} {st st' st'' : SortSt}
    (h1 : FrameOk mm visiting st st') (h2 : FrameOk mm visiting st' st'') :
    FrameOk mm visiting st st'' := by
  obtain ⟨d1, l1, he1, hn1, hp1⟩ := h1
  obtain ⟨d2, l2, he2, hn2, hp2⟩ := h2
  refine ⟨d1 ++ d2, l1 ++ l2, ?_, ?_, ?_⟩
  · rw [he2, he1]; simp
  · rw [List.nodup_append]
    refine ⟨hn1, hn2, ?_⟩
    intro x hx1 hx2
    have := (hp2 x hx2).2.1
    rw [he1] at this
    simp at this
    exact this.2 hx1
  · intro x hx
    rcases List.mem_append.mp hx with hx | hx
    · exact hp1 x hx
    · have h := hp2 x hx
      rw [he1] at h
      simp at h
      exact ⟨h.1, h.2.1.1, h.2.2⟩

theorem frame_shrink {mm : Registry} {m : String} {visiting : List String}
    {st st' : SortSt} (h : FrameOk mm (m :: visiting) st st') :
    FrameOk mm visiting st st' := by
  obtain ⟨d, l, he, hn, hp⟩ := h
  refine ⟨d, l, he, hn, fun x hx => ?_⟩
  have := hp x hx
  exact ⟨this.1, this.2.1, fun hv => this.2.2 (List.mem_cons_of_mem _ hv)⟩

theorem visitDeps_frame_of_visit (fuel : Nat) (mm : Registry)
    (hA : ∀ visiting m st, m ∈ keysOf mm →
      FrameOk mm visiting st (visit mm fuel visiting m st)) :
    ∀ (deps : List Dep) (visiting : List String) (mid : String) (st : SortSt),
      FrameOk mm visiting st (visitDeps mm fuel visiting mid deps st) := by
  intro deps
  induction deps with
  | nil => intro visiting mid st; rw [visitDeps_nil]; exact frame_refl mm visiting st
  | cons d rest ih =>
    intro visiting mid st
    rw [visitDeps_cons]
    by_cases h : mapHas mm d.name = true
    · simp only [h, if_pos]
      exact frame_trans (hA visiting d.name st (mapHas_iff_mem_keys.mp h))
        (ih visiting mid _)
    · simp only [Bool.not_eq_true] at h
      simp only [h]
      by_cases ho : d.optional = true
      · simp only [ho]
        exact frame_trans (frame_log mm visiting st _) (ih visiting mid _)
      · simp only [Bool.not_eq_true] at ho
        simp only [ho]
        exact frame_trans (frame_log mm visiting st _) (ih visiting mid _)

theorem visit_frame : ∀ (fuel : Nat) (mm : Registry) (visiting : List String)
    (m : String) (st : SortSt), m ∈ keysOf mm →
    FrameOk mm visiting st (visit mm fuel visiting m st) := by
  intro fuel
  induction fuel with
  | zero =>
    intro mm visiting m st _
    rw [visit_zero]
    exact frame_refl mm visiting st
  | succ f ih =>
    intro mm visiting m st hm
    rw [visit_succ]
    by_cases h1 : m ∈ st.visited
    · rw [if_pos (show st.visited.contains m = true by simp [h1])]
      exact frame_refl mm visiting st
    · rw [if_neg (show ¬ st.visited.contains m = true by simp [h1])]
      by_cases h2 : m ∈ visiting
      · rw [if_pos (show visiting.contains m = true by simp [h2])]
        exact frame_log mm visiting st _
      · rw [if_neg (show ¬ visiting.contains m = true by simp [h2])]
        have hB := visitDeps_frame_of_visit f mm (fun v m' st' hm' => ih mm v m' st' hm')
        have hstep : ∀ st1 : SortSt, FrameOk mm (m :: visiting) st st1 →
            FrameOk mm visiting st
              { visited := st1.visited ++ [m], sorted := st1.sorted ++ [m],
                log := st1.log } := by
          intro st1 hf
          obtain ⟨d, l, he, hn, hp⟩ := hf
          refine ⟨d ++ [m], l, ?_, ?_, ?_⟩
          · rw [he]; simp
          · rw [List.nodup_append]
            refine ⟨hn, List.nodup_singleton m, ?_⟩
            intro x hx hxm
            simp at hxm
            subst hxm
            exact (hp x hx).2.2 (List.mem_cons_self _ _)
          · intro x hx
            rcases List.mem_append.mp hx with hx | hx
            · have := hp x hx
              exact ⟨this.1, this.2.1, fun hv => this.2.2 (List.mem_cons_of_mem _ hv)⟩
            · simp at hx
              subst hx
              exact ⟨hm, h1, h2⟩
        cases hd : moduleDeps mm m with
        | none => exact hstep st (frame_refl mm (m :: visiting) st)
        | some deps => exact hstep _ (hB deps (m :: visiting) m st)

theorem visit_progress (fuel : Nat) (mm : Registry) (visiting : List String)
    (m : String) (st : SortSt) (hm : m ∈ keysOf mm)
    (hnd : visiting.Nodup) (hsub : visiting ⊆ keysOf mm)
    (hfuel : (keysOf mm).dedup.length < fuel + visiting.length) :
    m ∈ (visit mm fuel visiting m st).visited ∨ m ∈ visiting := by
  cases fuel with
  | zero =>
    exfalso
    have h1 : visiting ⊆ (keysOf mm).dedup := fun x hx => List.mem_dedup.mpr (hsub hx)
    have h2 : visiting.length ≤ (keysOf mm).dedup.length :=
      (List.subperm_of_subset hnd h1).length_le
    omega
  | succ f =>
    rw [visit_succ]
    by_cases h1 : m ∈ st.visited
    · left
      rw [if_pos (show st.visited.contains m = true by simp [h1])]
      exact h1
    · by_cases h2 : m ∈ visiting
      · right; exact h2
      · left
        rw [if_neg (show ¬ st.visited.contains m = true by simp [h1])]
        rw [if_neg (show ¬ visiting.contains m = true by simp [h2])]
        simp

/-! ### The top-level key loop and claim C2 -/

/-- The top-level `for (const moduleId of moduleMap.keys()) visit(moduleId)`
loop, folded over an arbitrary key list for induction. -/
def sortFold (mm : Registry) (ks : List String) (st : SortSt) : SortSt :=
  ks.foldl (fun st k => visit mm (sortFuel mm) [] k st) st

theorem sortModulesSt_eq_fold (mm : Registry) :
    sortModulesSt mm = sortFold mm (keysOf mm) { visited := [], sorted := [], log := [] } :=
  rfl

theorem dedup_keys_le (mm : Registry) :
    (keysOf mm).dedup.length ≤ mm.length := by
  calc (keysOf mm).dedup.length ≤ (keysOf mm).length :=
        (List.dedup_sublist _).length_le
  _ = mm.length := by simp [keysOf]

theorem sortFold_frame (mm : Registry) (ks : List String) (st : SortSt)
    (hks : ∀ k ∈ ks, k ∈ keysOf mm) :
    FrameOk mm [] st (sortFold mm ks st) := by
  induction ks generalizing st with
  | nil => exact frame_refl mm [] st
  | cons x rest ih =>
    have hx : x ∈ keysOf mm := hks x (List.mem_cons_self _ _)
    exact frame_trans (visit_frame (sortFuel mm) mm [] x st hx)
      (ih _ (fun k hk => hks k (List.mem_cons_of_mem _ hk)))

theorem frame_visited_mono {mm : Registry} {visiting : List String}
    {st st' : SortSt} (h : FrameOk mm visiting st st') {x : String}
    (hx : x ∈ st.visited) : x ∈ st'.visited := by
  obtain ⟨d, l, he, -, -⟩ := h
  rw [he]
  exact List.mem_append_left _ hx

theorem sortFold_covers (mm : Registry) (ks : List String) (st : SortSt)
    (hks : ∀ k ∈ ks, k ∈ keysOf mm) {k : String} (hk : k ∈ ks) :
    k ∈ (sortFold mm ks st).visited := by
  induction ks generalizing st with
  | nil => simp at hk
  | cons x rest ih =>
    rcases List.mem_cons.mp hk with hk | hk
    · subst hk
      have hx : k ∈ keysOf mm := hks k (List.mem_cons_self _ _)
      have hp := visit_progress (sortFuel mm) mm [] k st hx List.nodup_nil
        (by simp) (by have := dedup_keys_le mm; simp [sortFuel]; omega)
      rcases hp with hp | hp
      · exact frame_visited_mono
          (sortFold_frame mm rest _ (fun k' hk' => hks k' (List.mem_cons_of_mem _ hk'))) hp
      · simp at hp
    · exact ih _ (fun k' hk' => hks k' (List.mem_cons_of_mem _ hk')) hk

/-- In the final state, `sorted` and `visited` are the same list, a
permutation of the registry keys when those are distinct. -/
theorem sortModulesSt_spec (mm : Registry) :
    (sortModulesSt mm).sorted = (sortModulesSt mm).visited ∧
    (sortModulesSt mm).visited.Nodup ∧
    (∀ x ∈ (sortModulesSt mm).visited, x ∈ keysOf mm) ∧
    (∀ k ∈ keysOf mm, k ∈ (sortModulesSt mm).visited) := by
  rw [sortModulesSt_eq_fold]
  have hf := sortFold_frame mm (keysOf mm)
    { visited := [], sorted := [], log := [] } (fun k hk => hk)
  obtain ⟨d, l, he, hn, hp⟩ := hf
  refine ⟨by rw [he], by rw [he]; simpa using hn, ?_, ?_⟩
  · intro x hx
    rw [he] at hx
    simp at hx
    exact (hp x hx).1
  · intro k hk
    exact sortFold_covers mm (keysOf mm) _ (fun k' hk' => hk') hk

theorem sort_perm_keys (mm : Registry) (h : (keysOf mm).Nodup) :
    (sortModulesByDependency mm).Perm (keysOf mm) := by
  obtain ⟨hs, hn, hsub, hcov⟩ := sortModulesSt_spec mm
  unfold sortModulesByDependency
  rw [hs]
  exact (List.perm_ext_iff_of_nodup hn h).mpr
    (fun a => ⟨fun ha => hsub a ha, fun ha => hcov a ha⟩)

/-- C2: for every registry (dependency cycles and unregistered dependency
names included), `sortModulesByDependency` terminates and returns a
permutation of the registry's keys — every key exactly once and nothing
else. -/
theorem c2_sort_is_key_permutation (mm : Registry)
    (h : (keysOf mm).Nodup) :
    (sortModulesByDependency mm).Perm (keysOf mm) :=
  sort_perm_keys mm h

/-- Manifest builder shared by the concrete witness registries below. -/
def mkManifest (deps : Option (List Dep)) : Manifest :=
  { name := some (JVal.str "m"), version := some (JVal.str "1.0.0"),
    api_level := some (JVal.num 1), target_platform := some (JVal.str "1.x"),
    dependencies := deps }

/-- Registry record builder shared by the concrete witness registries. -/
def mkRecord (id : String) (deps : List Dep) : ModuleRecord :=
  { id := id,
    exports := { heliactylModule := some (mkManifest (some deps)),
                 hasLoadFunction := true, loadSucceeds := true },
    manifest := mkManifest (some deps) }

/-- A registry with a mutual required-dependency cycle between two
modules. -/
def cycleRegistry : Registry :=
  [("a", mkRecord "a" [{ name := "b", optional := false }]),
   ("b", mkRecord "b" [{ name := "a", optional := false }])]

/-- Witness for C2 at the mutual-cycle registry. -/
theorem c2_witness :
    (keysOf cycleRegistry).Nodup ∧
    (sortModulesByDependency cycleRegistry).Perm (keysOf cycleRegistry) :=
  ⟨by decide, c2_sort_is_key_permutation cycleRegistry (by decide)⟩

/-! ### Claim C1: dependency ordering -/

theorem precedes_append (l t : List String) {b v : String}
    (h : precedes l b v) : precedes (l ++ t) b v := by
  obtain ⟨hb, hv, hlt⟩ := h
  refine ⟨List.mem_append_left _ hb, List.mem_append_left _ hv, ?_⟩
  rw [List.indexOf_append_of_mem hb, List.indexOf_append_of_mem hv]
  exact hlt

theorem precedes_append_last (l : List String) {b m : String}
    (hb : b ∈ l) (hm : m ∉ l) : precedes (l ++ [m]) b m := by
  refine ⟨List.mem_append_left _ hb, by simp, ?_⟩
  rw [List.indexOf_append_of_mem hb, List.indexOf_append_of_not_mem hm]
  simp
  exact List.indexOf_lt_length.mpr hb

theorem moduleDeps_eq_some {mm : Registry} {m : String} {deps : List Dep}
    (h : moduleDeps mm m = some deps) :
    ∃ r, mapGet mm m = some r ∧ r.manifest.dependencies = some deps := by
  unfold moduleDeps at h
  cases hg : mapGet mm m with
  | none => rw [hg] at h; simp at h
  | some r => rw [hg] at h; exact ⟨r, rfl, h⟩

theorem depEdge_moduleDeps {mm : Registry} {a b : String}
    (h : depEdge mm a b) :
    ∃ deps d, moduleDeps mm a = some deps ∧ d ∈ deps ∧ d.name = b ∧
      mapHas mm b = true := by
  obtain ⟨r, deps, d, hg, hds, hdm, hdn, hbh⟩ := h
  exact ⟨deps, d, by unfold moduleDeps; rw [hg]; exact hds, hdm, hdn, hbh⟩

theorem depEdge_mem_keys {mm : Registry} {a b : String} (h : depEdge mm a b) :
    a ∈ keysOf mm := by
  obtain ⟨r, deps, d, hg, -⟩ := h
  exact mapGet_isSome_iff.mp (by rw [hg]; rfl)

/-- Order correctness of a sort state: every emitted module id has each of
its registered dependencies emitted strictly earlier. -/
def OrderOK (mm : Registry) (st : SortSt) : Prop :=
  ∀ v, v ∈ st.sorted → ∀ b, depEdge mm v b → precedes st.sorted b v

theorem visit_order : ∀ (fuel : Nat) (mm : Registry) (visiting : List String)
    (m : String) (st : SortSt),
    Acyclic mm → m ∈ keysOf mm → visiting.Nodup →
    (∀ x ∈ visiting, x ∈ keysOf mm) →
    (keysOf mm).dedup.length < fuel + visiting.length →
    (∀ b ∈ visiting, Relation.TransGen (depEdge mm) b m) →
    st.visited = st.sorted → OrderOK mm st →
    OrderOK mm (visit mm fuel visiting m st) ∧
    (visit mm fuel visiting m st).visited = (visit mm fuel visiting m st).sorted ∧
    m ∈ (visit mm fuel visiting m st).visited := by
  intro fuel
  induction fuel with
  | zero =>
    intro mm visiting m st _ _ hnd hsub hfuel _ _ _
    exfalso
    have h1 : visiting ⊆ (keysOf mm).dedup := fun x hx => List.mem_dedup.mpr (hsub x hx)
    have h2 : visiting.length ≤ (keysOf mm).dedup.length :=
      (List.subperm_of_subset hnd h1).length_le
    omega
  | succ f ih =>
    -- the dependency loop, given the induction hypothesis for `visit` at
    -- fuel `f`
    have hB : ∀ (mm : Registry), Acyclic mm →
        ∀ (deps : List Dep) (visiting : List String) (m : String) (st : SortSt),
        (∀ d ∈ deps, mapHas mm d.name = true → depEdge mm m d.name) →
        visiting.Nodup → (∀ x ∈ visiting, x ∈ keysOf mm) →
        (keysOf mm).dedup.length < f + visiting.length →
        (∀ b ∈ visiting, Relation.ReflTransGen (depEdge mm) b m) →
        st.visited = st.sorted → OrderOK mm st →
        OrderOK mm (visitDeps mm f visiting m deps st) ∧
        (visitDeps mm f visiting m deps st).visited =
          (visitDeps mm f visiting m deps st).sorted ∧
        (∀ d ∈ deps, mapHas mm d.name = true →
          d.name ∈ (visitDeps mm f visiting m deps st).visited) := by
      intro mm hAc deps
      induction deps with
      | nil =>
        intro visiting m st _ _ _ _ _ hvs hOK
        rw [visitDeps_nil]
        exact ⟨hOK, hvs, by simp⟩
      | cons d rest ihd =>
        intro visiting m st hdeps hnd hsub hfuel hchain hvs hOK
        rw [visitDeps_cons]
        by_cases hd : mapHas mm d.name = true
        · simp only [hd, if_pos]
          have hedge : depEdge mm m d.name := hdeps d (List.mem_cons_self _ _) hd
          have hchain' : ∀ b ∈ visiting, Relation.TransGen (depEdge mm) b d.name :=
            fun b hb => Relation.TransGen.tail' (hchain b hb) hedge
          obtain ⟨hOK1, hvs1, hmem1⟩ :=
            ih mm visiting d.name st hAc (mapHas_iff_mem_keys.mp hd) hnd hsub
              hfuel hchain' hvs hOK
          obtain ⟨hOK2, hvs2, hmem2⟩ :=
            ihd visiting m _ (fun d' hd' => hdeps d' (List.mem_cons_of_mem _ hd'))
              hnd hsub hfuel hchain hvs1 hOK1
          refine ⟨hOK2, hvs2, ?_⟩
          intro d' hd' hhas'
          rcases List.mem_cons.mp hd' with hd' | hd'
          · subst hd'
            have hframe := visitDeps_frame_of_visit f mm
              (fun v m' st' hm' => visit_frame f mm v m' st' hm') rest visiting m
              (visit mm f visiting d'.name st)
            exact frame_visited_mono hframe hmem1
          · exact hmem2 d' hd' hhas'
        · simp only [Bool.not_eq_true] at hd
          simp only [hd]
          have hstep : ∀ (st' : SortSt), st'.visited = st.visited →
              st'.sorted = st.sorted →
              OrderOK mm st' ∧ st'.visited = st'.sorted →
              OrderOK mm (visitDeps mm f visiting m rest st') ∧
              (visitDeps mm f visiting m rest st').visited =
                (visitDeps mm f visiting m rest st').sorted ∧
              (∀ d' ∈ d :: rest, mapHas mm d'.name = true →
                d'.name ∈ (visitDeps mm f visiting m rest st').visited) := by
            intro st' _ _ hok'
            obtain ⟨hOK2, hvs2, hmem2⟩ :=
              ihd visiting m st' (fun d' hd' => hdeps d' (List.mem_cons_of_mem _ hd'))
                hnd hsub hfuel hchain hok'.2 hok'.1
            refine ⟨hOK2, hvs2, ?_⟩
            intro d' hd' hhas'
            rcases List.mem_cons.mp hd' with hd' | hd'
            · subst hd'
              rw [hd] at hhas'
              simp at hhas'
            · exact hmem2 d' hd' hhas'
          by_cases ho : d.optional = true
          · simp only [ho]
            exact hstep _ rfl rfl ⟨fun v hv b hb => hOK v hv b hb, hvs⟩
          · simp only [Bool.not_eq_true] at ho
            simp only [ho]
            exact hstep _ rfl rfl ⟨fun v hv b hb => hOK v hv b hb, hvs⟩
    intro mm visiting m st hAc hm hnd hsub hfuel hchain hvs hOK
    rw [visit_succ]
    by_cases h1 : m ∈ st.visited
    · rw [if_pos (show st.visited.contains m = true by simp [h1])]
      exact ⟨hOK, hvs, h1⟩
    · rw [if_neg (show ¬ st.visited.contains m = true by simp [h1])]
      by_cases h2 : m ∈ visiting
      · exact absurd (hchain m h2) (hAc m)
      · rw [if_neg (show ¬ visiting.contains m = true by simp [h2])]
        have hfinish : ∀ (st1 : SortSt),
            OrderOK mm st1 → st1.visited = st1.sorted → m ∉ st1.sorted →
            (∀ b, depEdge mm m b → b ∈ st1.sorted) →
            OrderOK mm { st1 with visited := st1.visited ++ [m],
                                  sorted := st1.sorted ++ [m] } ∧
            st1.visited ++ [m] = st1.sorted ++ [m] ∧ m ∈ st1.visited ++ [m] := by
          intro st1 hOK1 hvs1 hnm hdep
          refine ⟨?_, by rw [hvs1], by simp⟩
          intro v hv b hedge
          simp only at hv
          rcases List.mem_append.mp hv with hv | hv
          · exact precedes_append _ _ (hOK1 v hv b hedge)
          · simp at hv
            subst hv
            exact precedes_append_last _ (hdep b hedge) hnm
        cases hdm : moduleDeps mm m with
        | none =>
          have h := hfinish st hOK (by rw [hvs]) (by rw [← hvs]; exact h1) ?_
          · exact ⟨h.1, h.2.1, h.2.2⟩
          · intro b hedge
            obtain ⟨deps, d, hds, -⟩ := depEdge_moduleDeps hedge
            rw [hdm] at hds
            simp at hds
        | some deps0 =>
          have hdeps0 : ∀ d ∈ deps0, mapHas mm d.name = true → depEdge mm m d.name := by
            intro d hd hhas
            obtain ⟨r, hg, hds⟩ := moduleDeps_eq_some hdm
            exact ⟨r, deps0, d, hg, hds, hd, rfl, hhas⟩
          have hchain' : ∀ b ∈ m :: visiting,
              Relation.ReflTransGen (depEdge mm) b m := by
            intro b hb
            rcases List.mem_cons.mp hb with hb | hb
            · subst hb; exact Relation.ReflTransGen.refl
            · exact (hchain b hb).to_reflTransGen
          obtain ⟨hOK1, hvs1, hdepvis⟩ :=
            hB mm hAc deps0 (m :: visiting) m st hdeps0
              (List.nodup_cons.mpr ⟨h2, hnd⟩)
              (fun x hx => by
                rcases List.mem_cons.mp hx with hx | hx
                · subst hx; exact hm
                · exact hsub x hx)
              (by simp; omega)
              hchain' hvs hOK
          have hframe := visitDeps_frame_of_visit f mm
            (fun v m' st' hm' => visit_frame f mm v m' st' hm') deps0
            (m :: visiting) m st
          have hnm : m ∉ (visitDeps mm f (m :: visiting) m deps0 st).sorted := by
            rw [← hvs1]
            obtain ⟨delta, lg, he, -, hp⟩ := hframe
            rw [he]
            simp only [SortSt.visited]
            intro hmem
            rcases List.mem_append.mp hmem with hmem | hmem
            · exact h1 hmem
            · exact (hp m hmem).2.2 (List.mem_cons_self _ _)
          have h := hfinish _ hOK1 hvs1 hnm ?_
          · exact ⟨h.1, h.2.1, h.2.2⟩
          · intro b hedge
            obtain ⟨deps', d', hds', hdm', hdn', hbh'⟩ := depEdge_moduleDeps hedge
            rw [hdm] at hds'
            simp at hds'
            subst hds'
            rw [← hvs1]
            exact hdn' ▸ hdepvis d' hdm' (by rw [hdn']; exact hbh')

/-- Order correctness of the full top-level loop over a key list. -/
theorem sortFold_order (mm : Registry) (hAc : Acyclic mm) (ks : List String)
    (st : SortSt) (hks : ∀ k ∈ ks, k ∈ keysOf mm)
    (hvs : st.visited = st.sorted) (hOK : OrderOK mm st) :
    OrderOK mm (sortFold mm ks st) ∧
    (sortFold mm ks st).visited = (sortFold mm ks st).sorted := by
  induction ks generalizing st with
  | nil => exact ⟨hOK, hvs⟩
  | cons x rest ihk =>
    have hx : x ∈ keysOf mm := hks x (List.mem_cons_self _ _)
    obtain ⟨hOK', hvs', -⟩ :=
      visit_order (sortFuel mm) mm [] x st hAc hx List.nodup_nil (by simp)
        (by have := dedup_keys_le mm; simp [sortFuel]; omega)
        (by simp) hvs hOK
    exact ihk _ (fun k hk => hks k (List.mem_cons_of_mem _ hk)) hvs' hOK'

/-- C1 (amended): for every registry whose dependency graph over registered
modules is acyclic, whenever module `a` declares a dependency named `b` and
`b` is registered, `b` strictly precedes `a` in the output of
`sortModulesByDependency`. -/
theorem c1_dependency_before_dependent (mm : Registry) (hAc : Acyclic mm)
    (a b : String) (hEdge : depEdge mm a b) :
    precedes (sortModulesByDependency mm) b a := by
  obtain ⟨hOK, hvs⟩ := sortFold_order mm hAc (keysOf mm)
    { visited := [], sorted := [], log := [] } (fun k hk => hk) rfl
    (by intro v hv; simp at hv)
  have hmema : a ∈ (sortFold mm (keysOf mm)
      { visited := [], sorted := [], log := [] }).visited :=
    sortFold_covers mm (keysOf mm) _ (fun k hk => hk) (depEdge_mem_keys hEdge)
  rw [hvs] at hmema
  exact hOK a hmema b hEdge

/-- Counterexample to C1 as stated: in the mutual-cycle registry, module
`b` declares a required dependency on `a` and `a` is registered, yet `a`
does not precede `b` in the resolved order (which is `["b", "a"]`). -/
theorem c1_counterexample :
    (∃ r deps d, mapGet cycleRegistry "b" = some r ∧
        r.manifest.dependencies = some deps ∧ d ∈ deps ∧
        d.optional = false ∧ d.name = "a") ∧
    mapHas cycleRegistry "a" = true ∧
    ¬ precedes (sortModulesByDependency cycleRegistry) "a" "b" := by
  refine ⟨⟨mkRecord "b" [{ name := "a", optional := false }],
    [{ name := "a", optional := false }], { name := "a", optional := false },
    rfl, rfl, by simp, rfl, rfl⟩, rfl, by decide⟩

/-- A two-module acyclic registry: `a` requires `b`, `b` has no
dependencies. -/
def acyclicRegistry : Registry :=
  [("a", mkRecord "a" [{ name := "b", optional := false }]),
   ("b", mkRecord "b" [])]

theorem transGen_exists_first {α : Type _} {r : α → α → Prop} {a b : α}
    (h : Relation.TransGen r a b) : ∃ z, r a z := by
  induction h with
  | single h => exact ⟨_, h⟩
  | tail _ _ ih => exact ih

theorem acyclicRegistry_edge_shape {x y : String}
    (h : depEdge acyclicRegistry x y) : x = "a" ∧ y = "b" := by
  obtain ⟨r, deps, d, hg, hds, hdm, hdn, hbh⟩ := h
  have hx : x ∈ keysOf acyclicRegistry := mapGet_isSome_iff.mp (by rw [hg]; rfl)
  simp [keysOf, acyclicRegistry] at hx
  rcases hx with hx | hx
  · subst hx
    have : r = mkRecord "a" [{ name := "b", optional := false }] := by
      simpa [acyclicRegistry, mapGet_cons] using hg.symm
    subst this
    simp [mkRecord, mkManifest] at hds
    subst hds
    simp at hdm
    subst hdm
    exact ⟨rfl, hdn.symm⟩
  · subst hx
    have : r = mkRecord "b" [] := by
      simpa [acyclicRegistry, mapGet_cons] using hg.symm
    subst this
    simp [mkRecord, mkManifest] at hds
    subst hds
    simp at hdm

theorem acyclicRegistry_acyclic : Acyclic acyclicRegistry := by
  intro x hx
  have hshape : ∀ y z, Relation.TransGen (depEdge acyclicRegistry) y z →
      z = "b" := by
    intro y z h
    induction h with
    | single h => exact (acyclicRegistry_edge_shape h).2
    | tail _ h _ => exact (acyclicRegistry_edge_shape h).2
  have hb : x = "b" := hshape x x hx
  subst hb
  obtain ⟨z, hz⟩ := transGen_exists_first hx
  exact absurd (acyclicRegistry_edge_shape hz).1 (by decide)

/-- Witness for C1 at the concrete acyclic registry: the required
dependency `b` of module `a` precedes `a` in the output. -/
theorem c1_witness :
    precedes (sortModulesByDependency acyclicRegistry) "b" "a" :=
  c1_dependency_before_dependent acyclicRegistry acyclicRegistry_acyclic "a" "b"
    ⟨mkRecord "a" [{ name := "b", optional := false }],
     [{ name := "b", optional := false }], { name := "b", optional := false },
     rfl, rfl, by simp, rfl, rfl⟩

/-! ### Claims C8 and C6: the load / initialize pipeline -/

/-- Boolean form of "the registry holds `id` and its entry point
succeeds". -/
def regLoadOk (reg : Registry) (id : String) : Bool :=
  match mapGet reg id with
  | some r => r.exports.loadSucceeds
  | none => false

theorem initFold_get (reg : Registry) (order : List String)
    (ld : List (String × ModuleRecord)) (id : String) :
    mapGet (order.foldl (fun ld id => (initializeModule reg ld id).1) ld) id =
      if id ∈ order ∧ regLoadOk reg id = true then mapGet reg id
      else mapGet ld id := by
  induction order generalizing ld with
  | nil => simp
  | cons o rest ihr =>
    rw [List.foldl_cons, ihr]
    by_cases hrest : id ∈ rest ∧ regLoadOk reg id = true
    · rw [if_pos hrest, if_pos ⟨List.mem_cons_of_mem _ hrest.1, hrest.2⟩]
    · rw [if_neg hrest]
      by_cases hid : id = o
      · subst hid
        by_cases hok : regLoadOk reg id = true
        · rw [if_pos ⟨List.mem_cons_self _ _, hok⟩]
          unfold regLoadOk at hok
          unfold initializeModule
          cases hg : mapGet reg id with
          | none => simp only [hg] at hok; simp at hok
          | some r =>
            simp only [hg] at hok
            simp only [hg, hok, if_true]
            rw [mapGet_mapSet_self ld id r]
        · rw [if_neg (fun hc => hok hc.2)]
          unfold regLoadOk at hok
          unfold initializeModule
          cases hg : mapGet reg id with
          | none => simp only [hg]
          | some r =>
            simp only [hg] at hok
            simp [hg, hok]
      · rw [if_neg (fun hc => hid (by
          rcases List.mem_cons.mp hc.1 with h | h
          · exact h
          · exact absurd ⟨h, hc.2⟩ hrest))]
        unfold initializeModule
        cases hg : mapGet reg o with
        | none => simp only [hg]
        | some r =>
          by_cases hok2 : r.exports.loadSucceeds = true
          · simp only [hg, hok2, if_true]
            exact mapGet_mapSet_ne ld r hid
          · simp [hg, hok2]

theorem initializeAll_get (reg : Registry) (order : List String) (id : String) :
    mapGet (initializeAll reg order) id =
      if id ∈ order ∧ regLoadOk reg id = true then mapGet reg id
      else none := by
  unfold initializeAll
  rw [initFold_get]
  by_cases h : id ∈ order ∧ regLoadOk reg id = true
  · rw [if_pos h, if_pos h]
  · rw [if_neg h, if_neg h]; rfl

/-- The value `loadModule` would register for one candidate (`none` when
the candidate is rejected or `require` throws). -/
def loadOutcome (apiLevel : Int) (satisfies : Option JVal → Bool)
    (moduleId : String) (exports? : Option ModuleExports) : Option ModuleRecord :=
  match exports? with
  | none => none
  | some ex =>
    match ex.heliactylModule with
    | none => none
    | some mf =>
      if !validateManifest apiLevel satisfies (some mf) then none
      else if !ex.hasLoadFunction then none
      else some { id := moduleId, exports := ex, manifest := mf }

theorem loadModule_fst (apiLevel : Int) (satisfies : Option JVal → Bool)
    (reg : Registry) (moduleId : String) (exports? : Option ModuleExports) :
    (loadModule apiLevel satisfies reg moduleId exports?).1 =
      match loadOutcome apiLevel satisfies moduleId exports? with
      | some r => mapSet reg moduleId r
      | none => reg := by
  unfold loadModule loadOutcome
  cases exports? with
  | none => rfl
  | some ex =>
    obtain ⟨hman, hload, hok⟩ := ex
    cases hman with
    | none => rfl
    | some mf =>
      by_cases hv : validateManifest apiLevel satisfies (some mf) = true
      · by_cases hl : hload = true
        · simp [hv, hl]
        · simp only [Bool.not_eq_true] at hl; simp [hv, hl]
      · simp only [Bool.not_eq_true] at hv; simp [hv]

theorem buildRegistry_step_other (apiLevel : Int) (satisfies : Option JVal → Bool)
    (reg : Registry) (x id : String) (e : Option ModuleExports) (hne : x ≠ id) :
    mapGet (loadModule apiLevel satisfies reg x e).1 id = mapGet reg id := by
  rw [loadModule_fst]
  cases loadOutcome apiLevel satisfies x e with
  | none => rfl
  | some r => exact mapGet_mapSet_ne reg r (fun h => hne h.symm)

theorem buildFold_other (apiLevel : Int) (satisfies : Option JVal → Bool)
    (disc : List (String × Option ModuleExports)) (reg : Registry) (id : String)
    (h : id ∉ keysOf disc) :
    mapGet (disc.foldl (fun rg p => (loadModule apiLevel satisfies rg p.1 p.2).1) reg) id =
      mapGet reg id := by
  induction disc generalizing reg with
  | nil => rfl
  | cons p rest ihr =>
    rw [List.foldl_cons, ihr _ (fun hm => h (List.mem_cons_of_mem _ hm))]
    exact buildRegistry_step_other apiLevel satisfies reg p.1 id p.2
      (fun he => h (by rw [← he]; exact List.mem_cons_self _ _))

theorem buildRegistry_get (apiLevel : Int) (satisfies : Option JVal → Bool)
    (disc : List (String × Option ModuleExports)) (id : String)
    (e : Option ModuleExports) (hnd : (keysOf disc).Nodup)
    (hmem : (id, e) ∈ disc) :
    mapGet (buildRegistry apiLevel satisfies disc) id =
      loadOutcome apiLevel satisfies id e := by
  unfold buildRegistry
  suffices h : ∀ reg : Registry,
      mapGet (disc.foldl (fun rg p => (loadModule apiLevel satisfies rg p.1 p.2).1) reg) id =
        match loadOutcome apiLevel satisfies id e with
        | some r => some r
        | none => mapGet reg id by
    rw [h []]
    cases loadOutcome apiLevel satisfies id e with
    | none => rfl
    | some r => rfl
  induction disc with
  | nil => simp at hmem
  | cons p rest ihr =>
    intro reg
    rcases List.mem_cons.mp hmem with hp | hp
    · subst hp
      simp only [keysOf, List.map_cons, List.nodup_cons] at hnd
      rw [List.foldl_cons, buildFold_other apiLevel satisfies rest _ id hnd.1]
      rw [loadModule_fst]
      cases loadOutcome apiLevel satisfies id e with
      | none => rfl
      | some r => exact mapGet_mapSet_self reg id r
    · have hne : p.1 ≠ id := by
        simp only [keysOf, List.map_cons, List.nodup_cons] at hnd
        intro he
        exact hnd.1 (he ▸ List.mem_map_of_mem Prod.fst hp)
      rw [List.foldl_cons]
      rw [ihr (by simp only [keysOf, List.map_cons, List.nodup_cons] at hnd; exact hnd.2) hp]
      cases loadOutcome apiLevel satisfies id e with
      | none =>
        simp only
        exact buildRegistry_step_other apiLevel satisfies reg p.1 id p.2 hne
      | some r => rfl

theorem buildRegistry_keys_nodup (apiLevel : Int) (satisfies : Option JVal → Bool)
    (disc : List (String × Option ModuleExports)) :
    (keysOf (buildRegistry apiLevel satisfies disc)).Nodup := by
  unfold buildRegistry
  suffices h : ∀ reg : Registry, (keysOf reg).Nodup →
      (keysOf (disc.foldl (fun rg p => (loadModule apiLevel satisfies rg p.1 p.2).1) reg)).Nodup by
    exact h [] (by simp [keysOf])
  induction disc with
  | nil => intro reg h; exact h
  | cons p rest ihr =>
    intro reg h
    rw [List.foldl_cons]
    apply ihr
    rw [loadModule_fst]
    cases loadOutcome apiLevel satisfies p.1 p.2 with
    | none => exact h
    | some r => exact keysOf_mapSet_nodup reg p.1 r h

theorem loadAll_get_iff (apiLevel : Int)
    (satisfies : Option JVal → Bool)
    (discovered : List (String × Option ModuleExports)) (id : String)
    (r : ModuleRecord) :
    mapGet (loadAllModules apiLevel satisfies discovered) id = some r ↔
      (mapGet (buildRegistry apiLevel satisfies discovered) id = some r ∧
       r.exports.loadSucceeds = true) := by
  unfold loadAllModules
  rw [initializeAll_get]
  constructor
  · intro h
    by_cases hc : id ∈ sortModulesByDependency (buildRegistry apiLevel satisfies discovered) ∧
        regLoadOk (buildRegistry apiLevel satisfies discovered) id = true
    · rw [if_pos hc] at h
      refine ⟨h, ?_⟩
      have := hc.2
      unfold regLoadOk at this
      rw [h] at this
      exact this
    · rw [if_neg hc] at h
      simp at h
  · intro ⟨hg, hok⟩
    have hkey : id ∈ keysOf (buildRegistry apiLevel satisfies discovered) :=
      mapGet_isSome_iff.mp (by rw [hg]; rfl)
    have hsorted : id ∈ sortModulesByDependency (buildRegistry apiLevel satisfies discovered) :=
      (sort_perm_keys _ (buildRegistry_keys_nodup apiLevel satisfies discovered)).mem_iff.mpr hkey
    rw [if_pos ⟨hsorted, by unfold regLoadOk; rw [hg]; exact hok⟩]
    exact hg

/-- C8: the loaded-modules map returned by `loadAllModules` holds exactly
the registered modules whose entry point completed without error: one
module's initialization failure only excludes that module, modules later
in the order still initialize. -/
theorem c8_loaded_iff_registered_and_ok (apiLevel : Int)
    (satisfies : Option JVal → Bool)
    (discovered : List (String × Option ModuleExports)) (id : String)
    (r : ModuleRecord) :
    mapGet (loadAllModules apiLevel satisfies discovered) id = some r ↔
      (mapGet (buildRegistry apiLevel satisfies discovered) id = some r ∧
       r.exports.loadSucceeds = true) :=
  loadAll_get_iff apiLevel satisfies discovered id r

/-- Witness for C8: a registry where one module's entry point throws; the
other is still initialized. -/
theorem c8_witness :
    mapGet (loadAllModules 3 (fun _ => true)
      [("bad", some { heliactylModule := some (mkManifest none),
                      hasLoadFunction := true, loadSucceeds := false }),
       ("ok", some { heliactylModule := some (mkManifest none),
                     hasLoadFunction := true, loadSucceeds := true })]) "ok" =
      some { id := "ok",
             exports := { heliactylModule := some (mkManifest none),
                          hasLoadFunction := true, loadSucceeds := true },
             manifest := mkManifest none } :=
  (c8_loaded_iff_registered_and_ok 3 (fun _ => true) _ "ok" _).mpr ⟨rfl, rfl⟩

theorem loadOutcome_some_ex (apiLevel : Int) (satisfies : Option JVal → Bool)
    (moduleId : String) (ex : ModuleExports) :
    loadOutcome apiLevel satisfies moduleId (some ex) =
      match ex.heliactylModule with
      | none => none
      | some mf =>
        if !validateManifest apiLevel satisfies (some mf) then none
        else if !ex.hasLoadFunction then none
        else some { id := moduleId, exports := ex, manifest := mf } := rfl

theorem validateManifest_true_of (apiLevel : Int) (satisfies : Option JVal → Bool)
    (mf : Manifest) (h1 : truthy mf.name = true) (h2 : truthy mf.version = true)
    (h3 : truthy mf.api_level = true) (h4 : truthy mf.target_platform = true)
    (h5 : jsGtNum mf.api_level apiLevel = false)
    (h6 : satisfies mf.target_platform = true) :
    validateManifest apiLevel satisfies (some mf) = true := by
  unfold validateManifest
  simp [h1, h2, h3, h4, h5, h6]

theorem validateManifest_false_of_gt (apiLevel : Int)
    (satisfies : Option JVal → Bool) (mf : Manifest)
    (h : jsGtNum mf.api_level apiLevel = true) :
    validateManifest apiLevel satisfies (some mf) = false := by
  unfold validateManifest
  simp [h]

/-- C6: a candidate whose manifest declares an integer `api_level` strictly
above the host's is never present in the loaded-modules map; one whose
`api_level` is at most the host's, whose required fields are present
(truthy, per the validator's check), whose `target_platform` range is
satisfied, and which exposes a callable `load` entry point that completes
without error, is present. -/
theorem c6_manifest_gating (apiLevel : Int) (satisfies : Option JVal → Bool)
    (discovered : List (String × Option ModuleExports)) (id : String)
    (ex : ModuleExports) (mf : Manifest) (k : Int)
    (hnd : (keysOf discovered).Nodup)
    (hmem : (id, some ex) ∈ discovered)
    (hman : ex.heliactylModule = some mf)
    (hk : jsToNumber mf.api_level = some k) :
    (apiLevel < k →
      mapGet (loadAllModules apiLevel satisfies discovered) id = none) ∧
    ((k ≤ apiLevel ∧ truthy mf.name = true ∧ truthy mf.version = true ∧
      truthy mf.api_level = true ∧ truthy mf.target_platform = true ∧
      satisfies mf.target_platform = true ∧ ex.hasLoadFunction = true ∧
      ex.loadSucceeds = true) →
      mapGet (loadAllModules apiLevel satisfies discovered) id =
        some { id := id, exports := ex, manifest := mf }) := by
  constructor
  · intro hlt
    have hgt : jsGtNum mf.api_level apiLevel = true := by
      unfold jsGtNum
      rw [hk]
      simp [hlt]
    have hreg : mapGet (buildRegistry apiLevel satisfies discovered) id = none := by
      rw [buildRegistry_get apiLevel satisfies discovered id (some ex) hnd hmem,
        loadOutcome_some_ex]
      simp only [hman]
      rw [validateManifest_false_of_gt apiLevel satisfies mf hgt]
      simp
    unfold loadAllModules
    rw [initializeAll_get]
    rw [if_neg]
    rintro ⟨-, hok⟩
    unfold regLoadOk at hok
    rw [hreg] at hok
    simp at hok
  · intro ⟨hle, h1, h2, h3, h4, h6, h7, h8⟩
    have hngt : jsGtNum mf.api_level apiLevel = false := by
      unfold jsGtNum
      rw [hk]
      simp
      omega
    have hv := validateManifest_true_of apiLevel satisfies mf h1 h2 h3 h4 hngt h6
    have hreg : mapGet (buildRegistry apiLevel satisfies discovered) id =
        some { id := id, exports := ex, manifest := mf } := by
      rw [buildRegistry_get apiLevel satisfies discovered id (some ex) hnd hmem,
        loadOutcome_some_ex]
      simp only [hman]
      simp [hv, h7]
    exact (loadAll_get_iff apiLevel satisfies discovered id _).mpr ⟨hreg, h8⟩

/-- Candidate exports for the C6 witness: a valid module. -/
def goodExports : ModuleExports :=
  { heliactylModule := some (mkManifest none), hasLoadFunction := true,
    loadSucceeds := true }

/-- Candidate exports for the C6 witness: manifest requires API level 5. -/
def highExports : ModuleExports :=
  { heliactylModule := some
      { name := some (JVal.str "m"), version := some (JVal.str "1.0.0"),
        api_level := some (JVal.num 5), target_platform := some (JVal.str "1.x"),
        dependencies := none },
    hasLoadFunction := true, loadSucceeds := true }

/-- Witness for C6 on a host at API level 3: the api-level-5 candidate is
absent from the loaded map, the api-level-1 candidate is present. -/
theorem c6_witness :
    mapGet (loadAllModules 3 (fun _ => true)
      [("good", some goodExports), ("high", some highExports)]) "high" = none ∧
    mapGet (loadAllModules 3 (fun _ => true)
      [("good", some goodExports), ("high", some highExports)]) "good" =
      some { id := "good", exports := goodExports, manifest := mkManifest none } :=
  ⟨(c6_manifest_gating 3 (fun _ => true) _ "high" highExports _ 5 (by decide)
      (by simp [highExports]) rfl rfl).1 (by norm_num),
   (c6_manifest_gating 3 (fun _ => true) _ "good" goodExports (mkManifest none) 1
      (by decide) (by simp [goodExports]) rfl rfl).2
      ⟨by norm_num, rfl, rfl, rfl, rfl, rfl, rfl, rfl⟩⟩

/-! ### Claim C7: missing dependencies are logged and skipped -/

/-- The diagnostic `sortModulesByDependency` emits for a missing
dependency: warning level when optional, error level when required. -/
def missingDepEvent (d : Dep) (moduleId : String) : LogEvent :=
  if d.optional then LogEvent.optionalDepMissing d.name moduleId
  else LogEvent.requiredDepMissing d.name moduleId

theorem frame_log_mono {mm : Registry} {visiting : List String}
    {st st' : SortSt} (h : FrameOk mm visiting st st') {x : LogEvent}
    (hx : x ∈ st.log) : x ∈ st'.log := by
  obtain ⟨d, l, he, -, -⟩ := h
  rw [he]
  exact List.mem_append_left _ hx

theorem visitDeps_log_mono (fuel : Nat) (mm : Registry)
    (visiting : List String) (mid : String) (deps : List Dep) (st : SortSt)
    {x : LogEvent} (hx : x ∈ st.log) :
    x ∈ (visitDeps mm fuel visiting mid deps st).log :=
  frame_log_mono
    (visitDeps_frame_of_visit fuel mm
      (fun v m' st' hm' => visit_frame fuel mm v m' st' hm') deps visiting mid st)
    hx

theorem visitDeps_logs_missing (fuel : Nat) (mm : Registry)
    (visiting : List String) (mid : String) (deps : List Dep) (st : SortSt) :
    ∀ d ∈ deps, mapHas mm d.name = false →
      missingDepEvent d mid ∈ (visitDeps mm fuel visiting mid deps st).log := by
  induction deps generalizing st with
  | nil => intro d hd; simp at hd
  | cons d0 rest ih =>
    intro d hd hhas
    rw [visitDeps_cons]
    rcases List.mem_cons.mp hd with hd | hd
    · subst hd
      rw [if_neg (by simp [hhas])]
      apply visitDeps_log_mono
      unfold missingDepEvent
      by_cases ho : d.optional = true
      · simp [ho]
      · simp only [Bool.not_eq_true] at ho; simp [ho]
    · exact ih _ d hd hhas

/-- Invariant: for every visited module, every missing dependency it
declares has already been logged at the level its optional flag selects. -/
def MissingLogged (mm : Registry) (st : SortSt) : Prop :=
  ∀ x r deps d, mapGet mm x = some r → r.manifest.dependencies = some deps →
    d ∈ deps → mapHas mm d.name = false → x ∈ st.visited →
    missingDepEvent d x ∈ st.log

theorem moduleDeps_of_mapGet {mm : Registry} {m : String} {r : ModuleRecord}
    (hg : mapGet mm m = some r) :
    moduleDeps mm m = r.manifest.dependencies := by
  unfold moduleDeps
  rw [hg]

theorem visit_missingLogged : ∀ (fuel : Nat) (mm : Registry)
    (visiting : List String) (m : String) (st : SortSt), m ∈ keysOf mm →
    MissingLogged mm st → MissingLogged mm (visit mm fuel visiting m st) := by
  intro fuel
  induction fuel with
  | zero => intro mm visiting m st _ h; rw [visit_zero]; exact h
  | succ f ih =>
    have hB : ∀ (mm : Registry) (deps : List Dep) (visiting : List String)
        (mid : String) (st : SortSt), MissingLogged mm st →
        MissingLogged mm (visitDeps mm f visiting mid deps st) := by
      intro mm deps
      induction deps with
      | nil => intro visiting mid st h; rw [visitDeps_nil]; exact h
      | cons d0 rest ihd =>
        intro visiting mid st h
        rw [visitDeps_cons]
        apply ihd
        by_cases hhas : mapHas mm d0.name = true
        · rw [if_pos hhas]
          exact ih mm visiting d0.name st (mapHas_iff_mem_keys.mp hhas) h
        · rw [if_neg hhas]
          have hmono : ∀ st' : SortSt, st'.visited = st.visited →
              (∀ x ∈ st.log, x ∈ st'.log) → MissingLogged mm st' := by
            intro st' hv hl x r deps' d hg hds hd hh hx
            exact hl _ (h x r deps' d hg hds hd hh (hv ▸ hx))
          by_cases ho : d0.optional = true
          · rw [if_pos ho]
            exact hmono _ rfl (fun x hx => List.mem_append_left _ hx)
          · rw [if_neg ho]
            exact hmono _ rfl (fun x hx => List.mem_append_left _ hx)
    intro mm visiting m st hm h
    rw [visit_succ]
    by_cases h1 : m ∈ st.visited
    · rw [if_pos (show st.visited.contains m = true by simp [h1])]
      exact h
    · rw [if_neg (show ¬ st.visited.contains m = true by simp [h1])]
      by_cases h2 : m ∈ visiting
      · rw [if_pos (show visiting.contains m = true by simp [h2])]
        intro x r deps' d hg hds hd hh hx
        exact List.mem_append_left _ (h x r deps' d hg hds hd hh hx)
      · rw [if_neg (show ¬ visiting.contains m = true by simp [h2])]
        cases hdm : moduleDeps mm m with
        | none =>
          intro x r deps' d hg hds hd hh hx
          simp only at hx
          rcases List.mem_append.mp hx with hx | hx
          · exact h x r deps' d hg hds hd hh hx
          · simp at hx
            subst hx
            rw [moduleDeps_of_mapGet hg] at hdm
            rw [hdm] at hds
            simp at hds
        | some deps0 =>
          intro x r deps' d hg hds hd hh hx
          simp only at hx
          rcases List.mem_append.mp hx with hx | hx
          · exact hB mm deps0 (m :: visiting) m st h x r deps' d hg hds hd hh hx
          · simp at hx
            subst hx
            rw [moduleDeps_of_mapGet hg, hds] at hdm
            have hdeq : deps' = deps0 := by injection hdm
            exact visitDeps_logs_missing f mm (x :: visiting) x deps0 st d
              (hdeq ▸ hd) hh

theorem sortModulesSt_missingLogged (mm : Registry) :
    MissingLogged mm (sortModulesSt mm) := by
  rw [sortModulesSt_eq_fold]
  have h : ∀ (ks : List String) (st : SortSt), (∀ k ∈ ks, k ∈ keysOf mm) →
      MissingLogged mm st → MissingLogged mm (sortFold mm ks st) := by
    intro ks
    induction ks with
    | nil => intro st _ h; exact h
    | cons x rest ihk =>
      intro st hks h
      exact ihk _ (fun k hk => hks k (List.mem_cons_of_mem _ hk))
        (visit_missingLogged (sortFuel mm) mm [] x st (hks x (List.mem_cons_self _ _)) h)
  exact h (keysOf mm) _ (fun k hk => hk) (by intro x r deps d _ _ _ _ hx; simp at hx)

/-- C7: a registered module declaring a dependency whose name is not a
registry key still appears in the resolved order and still initializes
(entry point permitting); the missing dependency is skipped (it never
appears in the output) and the level-appropriate diagnostic is logged. -/
theorem c7_missing_dependency (mm : Registry) (m : String) (r : ModuleRecord)
    (deps : List Dep) (d : Dep)
    (hg : mapGet mm m = some r)
    (hds : r.manifest.dependencies = some deps)
    (hd : d ∈ deps) (habs : d.name ∉ keysOf mm) :
    m ∈ sortModulesByDependency mm ∧
    d.name ∉ sortModulesByDependency mm ∧
    missingDepEvent d m ∈ (sortModulesSt mm).log ∧
    (r.exports.loadSucceeds = true →
      mapGet (initializeAll mm (sortModulesByDependency mm)) m = some r) := by
  obtain ⟨hs, hn, hsub, hcov⟩ := sortModulesSt_spec mm
  have hm : m ∈ keysOf mm := mapGet_isSome_iff.mp (by rw [hg]; rfl)
  have hmem : m ∈ sortModulesByDependency mm := by
    unfold sortModulesByDependency
    rw [hs]
    exact hcov m hm
  refine ⟨hmem, ?_, ?_, ?_⟩
  · intro hmemd
    unfold sortModulesByDependency at hmemd
    rw [hs] at hmemd
    exact habs (hsub _ hmemd)
  · exact sortModulesSt_missingLogged mm m r deps d hg hds hd
      (by rw [← Bool.not_eq_true]; exact fun hh => habs (mapHas_iff_mem_keys.mp hh))
      (by unfold sortModulesByDependency at hmem; rw [hs] at hmem; exact hmem)
  · intro hok
    rw [initializeAll_get]
    rw [if_pos ⟨hmem, by unfold regLoadOk; rw [hg]; exact hok⟩]
    exact hg

/-- A registry whose single module requires an unregistered dependency. -/
def missingDepRegistry : Registry :=
  [("m", mkRecord "m" [{ name := "ghost", optional := false }])]

/-- Witness for C7: the module with the unmet required dependency still
resolves, the ghost id is absent from the output, the error-level event is
logged, and the module still initializes. -/
theorem c7_witness :
    "m" ∈ sortModulesByDependency missingDepRegistry ∧
    "ghost" ∉ sortModulesByDependency missingDepRegistry ∧
    missingDepEvent { name := "ghost", optional := false } "m" ∈
      (sortModulesSt missingDepRegistry).log ∧
    ((mkRecord "m" [{ name := "ghost", optional := false }]).exports.loadSucceeds = true →
      mapGet (initializeAll missingDepRegistry
        (sortModulesByDependency missingDepRegistry)) "m" =
        some (mkRecord "m" [{ name := "ghost", optional := false }])) :=
  c7_missing_dependency missingDepRegistry "m"
    (mkRecord "m" [{ name := "ghost", optional := false }])
    [{ name := "ghost", optional := false }] { name := "ghost", optional := false }
    rfl rfl (by simp) (by decide)

/-! ### Claim C9: tie-break order for unrelated modules -/

/-- Registry for the C9 counterexample: `a` depends on `c`; modules `b`
and `c` have no dependency relationship in either direction. -/
def tieRegistry : Registry :=
  [("a", mkRecord "a" [{ name := "c", optional := false }]),
   ("b", mkRecord "b" []), ("c", mkRecord "c" [])]

theorem tieRegistry_edge_shape {x y : String}
    (h : depEdge tieRegistry x y) : x = "a" ∧ y = "c" := by
  obtain ⟨r, deps, d, hg, hds, hdm, hdn, hbh⟩ := h
  have hx : x ∈ keysOf tieRegistry := mapGet_isSome_iff.mp (by rw [hg]; rfl)
  simp [keysOf, tieRegistry] at hx
  rcases hx with hx | hx | hx
  · subst hx
    have : r = mkRecord "a" [{ name := "c", optional := false }] := by
      simpa [tieRegistry, mapGet_cons] using hg.symm
    subst this
    simp [mkRecord, mkManifest] at hds
    subst hds
    simp at hdm
    subst hdm
    exact ⟨rfl, hdn.symm⟩
  · subst hx
    have : r = mkRecord "b" [] := by
      simpa [tieRegistry, mapGet_cons] using hg.symm
    subst this
    simp [mkRecord, mkManifest] at hds
    subst hds
    simp at hdm
  · subst hx
    have : r = mkRecord "c" [] := by
      simpa [tieRegistry, mapGet_cons] using hg.symm
    subst this
    simp [mkRecord, mkManifest] at hds
    subst hds
    simp at hdm

/-- Counterexample to C9 as stated: in `tieRegistry`, modules `b` and `c`
have no dependency relationship (in either direction, transitively), `b`
precedes `c` in registry key order, yet the resolved order is
`["c", "a", "b"]`, where `c` precedes `b`. -/
theorem c9_counterexample :
    (¬ Relation.TransGen (depEdge tieRegistry) "b" "c") ∧
    (¬ Relation.TransGen (depEdge tieRegistry) "c" "b") ∧
    precedes (keysOf tieRegistry) "b" "c" ∧
    ¬ precedes (sortModulesByDependency tieRegistry) "b" "c" := by
  refine ⟨?_, ?_, by decide, by decide⟩
  · intro h
    obtain ⟨z, hz⟩ := transGen_exists_first h
    exact absurd (tieRegistry_edge_shape hz).1 (by decide)
  · intro h
    obtain ⟨z, hz⟩ := transGen_exists_first h
    exact absurd (tieRegistry_edge_shape hz).1 (by decide)

/-- The module id `x` is never named as a dependency by any registry
entry. -/
def NeverDep (mm : Registry) (x : String) : Prop :=
  ∀ p ∈ mm, ∀ d ∈ p.2.manifest.dependencies.getD [], d.name ≠ x

instance neverDepDecidable (mm : Registry) (x : String) :
    Decidable (NeverDep mm x) :=
  inferInstanceAs
    (Decidable (∀ p ∈ mm, ∀ d ∈ p.2.manifest.dependencies.getD [], d.name ≠ x))

theorem visit_neverDep : ∀ (fuel : Nat) (mm : Registry) (visiting : List String)
    (m : String) (st : SortSt) (x : String), NeverDep mm x → m ≠ x →
    x ∉ st.visited → x ∉ (visit mm fuel visiting m st).visited := by
  intro fuel
  induction fuel with
  | zero => intro mm visiting m st x _ _ hx; rw [visit_zero]; exact hx
  | succ f ih =>
    have hB : ∀ (mm : Registry) (deps : List Dep) (visiting : List String)
        (mid : String) (st : SortSt) (x : String), NeverDep mm x →
        (∀ d ∈ deps, d.name ≠ x) → x ∉ st.visited →
        x ∉ (visitDeps mm f visiting mid deps st).visited := by
      intro mm deps
      induction deps with
      | nil => intro visiting mid st x _ _ hx; rw [visitDeps_nil]; exact hx
      | cons d0 rest ihd =>
        intro visiting mid st x hnev hnames hx
        rw [visitDeps_cons]
        apply ihd _ _ _ _ hnev (fun d hd => hnames d (List.mem_cons_of_mem _ hd))
        by_cases hhas : mapHas mm d0.name = true
        · rw [if_pos hhas]
          exact ih mm visiting d0.name st x hnev (hnames d0 (List.mem_cons_self _ _)) hx
        · rw [if_neg hhas]
          by_cases ho : d0.optional = true
          · rw [if_pos ho]; exact hx
          · rw [if_neg ho]; exact hx
    intro mm visiting m st x hnev hmx hx
    rw [visit_succ]
    by_cases h1 : m ∈ st.visited
    · rw [if_pos (show st.visited.contains m = true by simp [h1])]; exact hx
    · rw [if_neg (show ¬ st.visited.contains m = true by simp [h1])]
      by_cases h2 : m ∈ visiting
      · rw [if_pos (show visiting.contains m = true by simp [h2])]; exact hx
      · rw [if_neg (show ¬ visiting.contains m = true by simp [h2])]
        have hstep : ∀ st1 : SortSt, x ∉ st1.visited →
            x ∉ (st1.visited ++ [m]) := by
          intro st1 hx1 hmem
          rcases List.mem_append.mp hmem with h | h
          · exact hx1 h
          · simp at h
            exact hmx h.symm
        cases hdm : moduleDeps mm m with
        | none => exact hstep st hx
        | some deps0 =>
          obtain ⟨r, hg, hds⟩ := moduleDeps_eq_some hdm
          exact hstep _ (hB mm deps0 (m :: visiting) m st x hnev
            (fun d hd => hnev (m, r) (mapGet_eq_some_mem hg) d (by rw [hds]; exact hd))
            hx)

theorem sortFold_neverDep (mm : Registry) (ks : List String) (st : SortSt)
    (x : String) (hnev : NeverDep mm x) (hks : ∀ k ∈ ks, k ≠ x)
    (hx : x ∉ st.visited) : x ∉ (sortFold mm ks st).visited := by
  induction ks generalizing st with
  | nil => exact hx
  | cons k rest ihk =>
    exact ihk _ (fun k' hk' => hks k' (List.mem_cons_of_mem _ hk'))
      (visit_neverDep (sortFuel mm) mm [] k st x hnev (hks k (List.mem_cons_self _ _)) hx)

theorem frame_preserves_vs {mm : Registry} {visiting : List String}
    {st st' : SortSt} (h : FrameOk mm visiting st st')
    (hvs : st.visited = st.sorted) : st'.visited = st'.sorted := by
  obtain ⟨d, l, he, -, -⟩ := h
  rw [he]
  simp [hvs]

/-- C9 (amended): for every registry with distinct keys and every pair of
registered modules neither of which is named as a dependency by any
registry entry, their relative order in the output of
`sortModulesByDependency` equals their relative order in registry key
order. -/
theorem c9_unreferenced_follow_key_order (mm : Registry) (a b : String)
    (hnd : (keysOf mm).Nodup) (hna : NeverDep mm a) (hnb : NeverDep mm b)
    (hab : precedes (keysOf mm) a b) :
    precedes (sortModulesByDependency mm) a b := by
  obtain ⟨ha, hb, hlt⟩ := hab
  have hne : a ≠ b := by
    intro h
    subst h
    exact Nat.lt_irrefl _ hlt
  obtain ⟨K1, K2, hsplit⟩ := List.mem_iff_append.mp ha
  have haK1 : a ∉ K1 := by
    rw [hsplit] at hnd
    intro hmem
    exact (List.disjoint_of_nodup_append hnd) hmem (List.mem_cons_self _ _)
  have hidxa : (keysOf mm).indexOf a = K1.length := by
    rw [hsplit, List.indexOf_append_of_not_mem haK1]
    simp
  have hbK1 : b ∉ K1 := by
    intro hmem
    have : (keysOf mm).indexOf b < K1.length := by
      rw [hsplit, List.indexOf_append_of_mem hmem]
      exact List.indexOf_lt_length.mpr hmem
    omega
  have hbK2 : b ∈ K2 := by
    rw [hsplit] at hb
    rcases List.mem_append.mp hb with h | h
    · exact absurd h hbK1
    · rcases List.mem_cons.mp h with h | h
      · exact absurd h.symm hne
      · exact h
  -- unfold the fold along the split
  have hsort : sortModulesByDependency mm =
      (sortFold mm K2 (visit mm (sortFuel mm) [] a
        (sortFold mm K1 { visited := [], sorted := [], log := [] }))).sorted := by
    unfold sortModulesByDependency
    rw [sortModulesSt_eq_fold, hsplit]
    unfold sortFold
    rw [List.foldl_append, List.foldl_cons]
  have hK1keys : ∀ k ∈ K1, k ∈ keysOf mm := by
    intro k hk
    rw [hsplit]
    exact List.mem_append_left _ hk
  have hK2keys : ∀ k ∈ K2, k ∈ keysOf mm := by
    intro k hk
    rw [hsplit]
    exact List.mem_append_right _ (List.mem_cons_of_mem _ hk)
  set st0 : SortSt := { visited := [], sorted := [], log := [] } with hst0
  set st1 := sortFold mm K1 st0 with hst1
  set st2 := visit mm (sortFuel mm) [] a st1 with hst2
  have hvs1 : st1.visited = st1.sorted :=
    frame_preserves_vs (sortFold_frame mm K1 st0 hK1keys) rfl
  have hbv1 : b ∉ st1.visited :=
    sortFold_neverDep mm K1 st0 b hnb
      (fun k hk hkb => hbK1 (hkb ▸ hk)) (by simp [hst0])
  have hav2 : a ∈ st2.visited := by
    rcases visit_progress (sortFuel mm) mm [] a st1 ha List.nodup_nil (by simp)
      (by have := dedup_keys_le mm; simp [sortFuel]; omega) with h | h
    · exact h
    · simp at h
  have hbv2 : b ∉ st2.visited :=
    visit_neverDep (sortFuel mm) mm [] a st1 b hnb hne hbv1
  have hvs2 : st2.visited = st2.sorted :=
    frame_preserves_vs (visit_frame (sortFuel mm) mm [] a st1 ha) hvs1
  obtain ⟨d3, l3, he3, -, -⟩ := sortFold_frame mm K2 st2 hK2keys
  have hvs3 : (sortFold mm K2 st2).visited = (sortFold mm K2 st2).sorted :=
    frame_preserves_vs (sortFold_frame mm K2 st2 hK2keys) hvs2
  have hbv3 : b ∈ (sortFold mm K2 st2).visited :=
    sortFold_covers mm K2 st2 hK2keys hbK2
  rw [hsort]
  have has2 : a ∈ st2.sorted := hvs2 ▸ hav2
  have hbs2 : b ∉ st2.sorted := fun h => hbv2 (hvs2 ▸ h)
  have hbs3 : b ∈ (sortFold mm K2 st2).sorted := hvs3 ▸ hbv3
  refine ⟨?_, hbs3, ?_⟩
  · rw [he3]
    simp only [SortSt.sorted]
    exact List.mem_append_left _ has2
  · rw [he3]
    simp only [SortSt.sorted]
    rw [List.indexOf_append_of_mem has2, List.indexOf_append_of_not_mem hbs2]
    have h1 : st2.sorted.indexOf a < st2.sorted.length :=
      List.indexOf_lt_length.mpr has2
    omega

/-- Witness for C9 (amended) on `tieRegistry`: neither `a` nor `b` is a
declared dependency there, `a` precedes `b` among the keys, and the output
keeps them in that order. -/
theorem c9_witness :
    precedes (sortModulesByDependency tieRegistry) "a" "b" :=
  c9_unreferenced_follow_key_order tieRegistry "a" "b" (by decide) (by decide)
    (by decide) (by decide)

/-! ### Claim C3: the in-place merge -/

theorem applySourcePairs_nil (target : List (String × JVal)) :
    applySourcePairs target [] = target := by
  rw [applySourcePairs]

theorem applySourcePairs_cons (target : List (String × JVal)) (k : String)
    (v : JVal) (rest : List (String × JVal)) :
    applySourcePairs target ((k, v) :: rest) =
      applySourcePairs (mapSet target k (mergeStep v (mapGet target k))) rest := by
  rw [applySourcePairs]

theorem updateObjectInPlace_eq (target source : List (String × JVal)) :
    updateObjectInPlace target source =
      applySourcePairs (target.filter (fun p => mapHas source p.1)) source := by
  rw [updateObjectInPlace]

theorem mergeStep_obj_obj (sf tf : List (String × JVal)) :
    mergeStep (JVal.obj sf) (some (JVal.obj tf)) =
      JVal.obj (updateObjectInPlace tf sf) := by
  rw [mergeStep]

/-- Lookup in the first merge phase (deletion of keys absent from the
source). -/
theorem mapGet_filter_has (t s : List (String × JVal)) (k : String) :
    mapGet (t.filter (fun p => mapHas s p.1)) k =
      if mapHas s k then mapGet t k else none := by
  induction t with
  | nil => simp [mapGet_nil]
  | cons p rest ih =>
    rw [List.filter_cons]
    by_cases hp : p.1 = k
    · rw [hp]
      by_cases hh : mapHas s k = true
      · rw [if_pos (by simpa using hh)]
        rw [mapGet_cons, mapGet_cons]
        simp [hp, hh]
      · simp only [Bool.not_eq_true] at hh
        rw [hh]
        simp only [Bool.false_eq_true, if_false]
        rw [ih, hh]
        simp
    · have hcons : ∀ l : List (String × JVal), mapGet (p :: l) k = mapGet l k := by
        intro l
        rw [mapGet_cons, if_neg (by simp [hp])]
      by_cases hh : mapHas s p.1 = true
      · rw [if_pos (by simpa using hh), hcons, ih, hcons]
      · simp only [Bool.not_eq_true] at hh
        rw [hh]
        simp only [Bool.false_eq_true, if_false]
        rw [ih, hcons]

/-- Lookup after the second merge phase: the key's value is `mergeStep` of
the source value and the target's value at fold entry (source keys
distinct). -/
theorem applySourcePairs_get (pairs : List (String × JVal))
    (target : List (String × JVal)) (k : String)
    (hnd : (keysOf pairs).Nodup) :
    mapGet (applySourcePairs target pairs) k =
      match mapGet pairs k with
      | some v => some (mergeStep v (mapGet target k))
      | none => mapGet target k := by
  induction pairs generalizing target with
  | nil => rw [applySourcePairs_nil, mapGet_nil]
  | cons p rest ih =>
    obtain ⟨k0, v0⟩ := p
    rw [applySourcePairs_cons]
    simp only [keysOf, List.map_cons, List.nodup_cons] at hnd
    by_cases hk : k0 = k
    · subst hk
      rw [mapGet_cons]
      simp only [beq_self_eq_true, if_true]
      have hrest : mapGet rest k0 = none :=
        mapGet_eq_none_iff.mpr hnd.1
      rw [ih _ hnd.2, hrest]
      simp only
      rw [mapGet_mapSet_self]
    · rw [mapGet_cons, if_neg (by simp [hk])]
      rw [ih _ hnd.2]
      rw [mapGet_mapSet_ne target _ (fun h => hk h.symm)]

/-- The central behavior of `updateObjectInPlace` at each key: keys absent
from the source are gone, keys present take `mergeStep` of the source
value and the old target value. -/
theorem mapGet_update (t s : List (String × JVal)) (k : String)
    (hs : (keysOf s).Nodup) :
    mapGet (updateObjectInPlace t s) k =
      match mapGet s k with
      | some v => some (mergeStep v (mapGet t k))
      | none => none := by
  rw [updateObjectInPlace_eq, applySourcePairs_get _ _ _ hs, mapGet_filter_has]
  cases hg : mapGet s k with
  | none =>
    rw [if_neg (by simp [mapHas, hg])]
  | some v =>
    rw [if_pos (by simp [mapHas, hg])]

theorem applySourcePairs_keys_nodup (pairs target : List (String × JVal))
    (h : (keysOf target).Nodup) :
    (keysOf (applySourcePairs target pairs)).Nodup := by
  induction pairs generalizing target with
  | nil => rw [applySourcePairs_nil]; exact h
  | cons p rest ih =>
    obtain ⟨k0, v0⟩ := p
    rw [applySourcePairs_cons]
    exact ih _ (keysOf_mapSet_nodup _ _ _ h)

theorem update_keys_nodup (t s : List (String × JVal))
    (ht : (keysOf t).Nodup) :
    (keysOf (updateObjectInPlace t s)).Nodup := by
  rw [updateObjectInPlace_eq]
  apply applySourcePairs_keys_nodup
  have hsub : List.Sublist (keysOf (t.filter (fun p => mapHas s p.1))) (keysOf t) := by
    unfold keysOf
    exact (List.filter_sublist t).map Prod.fst
  exact List.Nodup.sublist hsub ht

/-! #### Canonical form: structural equality up to object key order

`updateObjectInPlace` preserves the target's field order for surviving
keys while JS object semantics make key order irrelevant for structural
equality, so the merge result is compared with the source after
normalizing: object fields sorted by key at every level. -/

/-- Ordering of object fields by key. -/
def fieldLE (p q : String × JVal) : Prop := p.1 ≤ q.1

instance fieldLEDecidable : DecidableRel fieldLE :=
  fun p q => inferInstanceAs (Decidable (p.1 ≤ q.1))

instance fieldLETotal : IsTotal (String × JVal) fieldLE :=
  ⟨fun a b => le_total a.1 b.1⟩

instance fieldLETrans : IsTrans (String × JVal) fieldLE :=
  ⟨fun _ _ _ h1 h2 => le_trans h1 h2⟩

/-- Strict version of `fieldLE`, antisymmetric outright. -/
def fieldLT (p q : String × JVal) : Prop := p.1 < q.1

instance fieldLTAntisymm : IsAntisymm (String × JVal) fieldLT :=
  ⟨fun _ _ h1 h2 => absurd h2 (not_lt.mpr (le_of_lt h1))⟩

/-- Sort an object's fields by key. -/
def sortFields (l : List (String × JVal)) : List (String × JVal) :=
  List.insertionSort fieldLE l

mutual

/-- Normalization of a value: sort every object's fields by key,
recursively. -/
def normJ : JVal → JVal
  | JVal.obj fs => JVal.obj (sortFields (normFields fs))
  | JVal.arr xs => JVal.arr (normList xs)
  | v => v
termination_by v => sizeOf v

/-- Normalize each field value of an object. -/
def normFields : List (String × JVal) → List (String × JVal)
  | [] => []
  | (k, v) :: rest => (k, normJ v) :: normFields rest
termination_by l => sizeOf l

/-- Normalize each element of an array. -/
def normList : List JVal → List JVal
  | [] => []
  | v :: rest => normJ v :: normList rest
termination_by l => sizeOf l

end

mutual

/-- Well-formedness of a JS-object-shaped value: every object level has
distinct keys (always true of values produced by a JS runtime or a TOML
parser). -/
def wfKeys : JVal → Bool
  | JVal.obj fs => decide ((keysOf fs).Nodup) && wfFields fs
  | JVal.arr xs => wfList xs
  | _ => true
termination_by v => sizeOf v

/-- Well-formedness of each field value of an object. -/
def wfFields : List (String × JVal) → Bool
  | [] => true
  | (_, v) :: rest => wfKeys v && wfFields rest
termination_by l => sizeOf l

/-- Well-formedness of each element of an array. -/
def wfList : List JVal → Bool
  | [] => true
  | v :: rest => wfKeys v && wfList rest
termination_by l => sizeOf l

end

theorem wfKeys_obj {fs : List (String × JVal)}
    (h : wfKeys (JVal.obj fs) = true) :
    (keysOf fs).Nodup ∧ wfFields fs = true := by
  rw [wfKeys] at h
  simp at h
  exact h

theorem wfFields_mem {fs : List (String × JVal)} {k : String} {v : JVal}
    (h : wfFields fs = true) (hm : (k, v) ∈ fs) : wfKeys v = true := by
  induction fs with
  | nil => simp at hm
  | cons p rest ih =>
    obtain ⟨k0, v0⟩ := p
    rw [wfFields] at h
    simp only [Bool.and_eq_true] at h
    rcases List.mem_cons.mp hm with hm | hm
    · injection hm with h1 h2
      rw [h2]
      exact h.1
    · exact ih h.2 hm

theorem keysOf_normFields (l : List (String × JVal)) :
    keysOf (normFields l) = keysOf l := by
  induction l with
  | nil => rw [normFields]
  | cons p rest ih =>
    obtain ⟨k, v⟩ := p
    rw [normFields]
    simp only [keysOf, List.map_cons] at ih ⊢
    rw [ih]

theorem mem_normFields {l : List (String × JVal)} {k : String} {w : JVal} :
    (k, w) ∈ normFields l ↔ ∃ v, (k, v) ∈ l ∧ w = normJ v := by
  induction l with
  | nil => rw [normFields]; simp
  | cons p rest ih =>
    obtain ⟨k0, v0⟩ := p
    rw [normFields]
    constructor
    · intro h
      rcases List.mem_cons.mp h with h | h
      · injection h with h1 h2
        exact ⟨v0, by rw [h1]; exact List.mem_cons_self _ _, h2⟩
      · obtain ⟨v, hv, hw⟩ := ih.mp h
        exact ⟨v, List.mem_cons_of_mem _ hv, hw⟩
    · rintro ⟨v, hv, hw⟩
      rcases List.mem_cons.mp hv with h | h
      · injection h with h1 h2
        rw [h1, hw, h2]
        exact List.mem_cons_self _ _
      · exact List.mem_cons_of_mem _ (ih.mpr ⟨v, h, hw⟩)

theorem mem_mapGet_of_nodup {l : List (String × α)} {k : String} {v : α}
    (hnd : (keysOf l).Nodup) (hm : (k, v) ∈ l) : mapGet l k = some v := by
  induction l with
  | nil => simp at hm
  | cons p rest ih =>
    obtain ⟨k0, v0⟩ := p
    simp only [keysOf, List.map_cons, List.nodup_cons] at hnd
    rcases List.mem_cons.mp hm with h | h
    · injection h with h1 h2
      rw [mapGet_cons, if_pos (by simp [h1])]
      rw [h2]
    · have hk : k ≠ k0 := by
        intro he
        exact hnd.1 (he ▸ List.mem_map_of_mem Prod.fst h)
      rw [mapGet_cons, if_neg (by simp; exact fun he => hk he.symm)]
      exact ih hnd.2 h

theorem sorted_fieldLT_of {l : List (String × JVal)}
    (hs : List.Sorted fieldLE l) (hk : (keysOf l).Nodup) :
    List.Sorted fieldLT l := by
  have hne : l.Pairwise (fun a b => a.1 ≠ b.1) := by
    have : List.Pairwise Ne (List.map Prod.fst l) := hk
    exact List.pairwise_map.mp this
  exact (hs.and hne).imp (fun hab => lt_of_le_of_ne hab.1 hab.2)

theorem sortFields_eq_of {l1 l2 : List (String × JVal)}
    (h1 : (keysOf l1).Nodup) (h2 : (keysOf l2).Nodup)
    (h : ∀ p, p ∈ l1 ↔ p ∈ l2) : sortFields l1 = sortFields l2 := by
  have hn1 : l1.Nodup := List.Nodup.of_map Prod.fst h1
  have hn2 : l2.Nodup := List.Nodup.of_map Prod.fst h2
  have hperm12 : l1.Perm l2 := (List.perm_ext_iff_of_nodup hn1 hn2).mpr h
  have hp1 : (sortFields l1).Perm l1 := List.perm_insertionSort fieldLE l1
  have hp2 : (sortFields l2).Perm l2 := List.perm_insertionSort fieldLE l2
  have hk1 : (keysOf (sortFields l1)).Nodup :=
    ((hp1.map Prod.fst).nodup_iff).mpr h1
  have hk2 : (keysOf (sortFields l2)).Nodup :=
    ((hp2.map Prod.fst).nodup_iff).mpr h2
  exact List.eq_of_perm_of_sorted
    (hp1.trans (hperm12.trans hp2.symm))
    (sorted_fieldLT_of (List.sorted_insertionSort fieldLE l1) hk1)
    (sorted_fieldLT_of (List.sorted_insertionSort fieldLE l2) hk2)

theorem normJ_obj (fs : List (String × JVal)) :
    normJ (JVal.obj fs) = JVal.obj (sortFields (normFields fs)) := by
  rw [normJ]

/-- Two objects with distinct keys and pointwise norm-equal lookups have
the same normal form. -/
theorem normEqOfLookup {l1 l2 : List (String × JVal)}
    (h1 : (keysOf l1).Nodup) (h2 : (keysOf l2).Nodup)
    (h : ∀ k, (mapGet l1 k).map normJ = (mapGet l2 k).map normJ) :
    normJ (JVal.obj l1) = normJ (JVal.obj l2) := by
  rw [normJ_obj, normJ_obj]
  have hdir : ∀ (a b : List (String × JVal)), (keysOf a).Nodup →
      (∀ k, (mapGet a k).map normJ = (mapGet b k).map normJ) →
      ∀ k w, (k, w) ∈ normFields a → (k, w) ∈ normFields b := by
    intro a b ha hab k w hm
    obtain ⟨v, hv, hw⟩ := mem_normFields.mp hm
    have hga : mapGet a k = some v := mem_mapGet_of_nodup ha hv
    have h' := hab k
    rw [hga] at h'
    cases hgb : mapGet b k with
    | none => rw [hgb] at h'; simp at h'
    | some v2 =>
      rw [hgb] at h'
      simp at h'
      exact mem_normFields.mpr ⟨v2, mapGet_eq_some_mem hgb, by rw [hw, h']⟩
  congr 1
  apply sortFields_eq_of
  · rw [keysOf_normFields]; exact h1
  · rw [keysOf_normFields]; exact h2
  · intro p
    obtain ⟨k, w⟩ := p
    exact ⟨hdir l1 l2 h1 h k w, hdir l2 l1 h2 (fun k' => (h k').symm) k w⟩

theorem sizeOf_val_lt_of_mem {l : List (String × JVal)} {k : String} {v : JVal}
    (h : (k, v) ∈ l) : sizeOf v < sizeOf l := by
  have h1 := List.sizeOf_lt_of_mem h
  have h2 : sizeOf (k, v) = 1 + sizeOf k + sizeOf v := rfl
  omega

/-- After the merge, every key's value is norm-equal to the source's value
at that key (size-bounded induction). -/
theorem update_normEq_bounded : ∀ (n : Nat) (s t : List (String × JVal)),
    sizeOf s ≤ n → wfKeys (JVal.obj t) = true → wfKeys (JVal.obj s) = true →
    normJ (JVal.obj (updateObjectInPlace t s)) = normJ (JVal.obj s) := by
  intro n
  induction n with
  | zero =>
    intro s t hsz _ _
    exfalso
    cases s <;> simp at hsz
  | succ n ih =>
    intro s t hsz hwt hws
    obtain ⟨hndt, hwft⟩ := wfKeys_obj hwt
    obtain ⟨hnds, hwfs⟩ := wfKeys_obj hws
    apply normEqOfLookup (update_keys_nodup t s hndt) hnds
    intro k
    rw [mapGet_update t s k hnds]
    cases hg : mapGet s k with
    | none => rfl
    | some v =>
      simp only [Option.map_some']
      congr 1
      cases v with
      | obj sf =>
        cases hgt : mapGet t k with
        | none => rw [mergeStep.eq_def]
        | some tv =>
          cases tv with
          | obj tf =>
            rw [mergeStep_obj_obj]
            apply ih sf tf ?_ (wfFields_mem hwft (mapGet_eq_some_mem hgt))
              (wfFields_mem hwfs (mapGet_eq_some_mem hg))
            have h1 := sizeOf_val_lt_of_mem (mapGet_eq_some_mem hg)
            have h2 : sizeOf sf < sizeOf (JVal.obj sf) := by simp
            omega
          | null => rw [mergeStep.eq_def]
          | bool b => rw [mergeStep.eq_def]
          | num m => rw [mergeStep.eq_def]
          | str s' => rw [mergeStep.eq_def]
          | arr xs => rw [mergeStep.eq_def]
      | null => rw [mergeStep.eq_def]
      | bool b => rw [mergeStep.eq_def]
      | num m => rw [mergeStep.eq_def]
      | str s' => rw [mergeStep.eq_def]
      | arr xs => rw [mergeStep.eq_def]

theorem wfFields_of_mem {fs : List (String × JVal)}
    (h : ∀ k v, (k, v) ∈ fs → wfKeys v = true) : wfFields fs = true := by
  induction fs with
  | nil => rw [wfFields]
  | cons p rest ih =>
    obtain ⟨k0, v0⟩ := p
    rw [wfFields]
    simp only [Bool.and_eq_true]
    exact ⟨h k0 v0 (List.mem_cons_self _ _),
      ih (fun k v hm => h k v (List.mem_cons_of_mem _ hm))⟩

/-- The merge of two well-formed objects is well-formed. -/
theorem update_wf_bounded : ∀ (n : Nat) (s t : List (String × JVal)),
    sizeOf s ≤ n → wfKeys (JVal.obj t) = true → wfKeys (JVal.obj s) = true →
    wfKeys (JVal.obj (updateObjectInPlace t s)) = true := by
  intro n
  induction n with
  | zero =>
    intro s t hsz _ _
    exfalso
    cases s <;> simp at hsz
  | succ n ih =>
    intro s t hsz hwt hws
    obtain ⟨hndt, hwft⟩ := wfKeys_obj hwt
    obtain ⟨hnds, hwfs⟩ := wfKeys_obj hws
    rw [wfKeys]
    simp only [Bool.and_eq_true, decide_eq_true_eq]
    refine ⟨update_keys_nodup t s hndt, wfFields_of_mem ?_⟩
    intro k v hm
    have hg := mem_mapGet_of_nodup (update_keys_nodup t s hndt) hm
    rw [mapGet_update t s k hnds] at hg
    cases hgs : mapGet s k with
    | none => rw [hgs] at hg; simp at hg
    | some sv =>
      rw [hgs] at hg
      simp only [Option.some.injEq] at hg
      subst hg
      cases sv with
      | obj sf =>
        cases hgt : mapGet t k with
        | none =>
          rw [mergeStep.eq_def]
          exact wfFields_mem hwfs (mapGet_eq_some_mem hgs)
        | some tv =>
          cases tv with
          | obj tf =>
            rw [mergeStep_obj_obj]
            apply ih sf tf ?_ (wfFields_mem hwft (mapGet_eq_some_mem hgt))
              (wfFields_mem hwfs (mapGet_eq_some_mem hgs))
            have h1 := sizeOf_val_lt_of_mem (mapGet_eq_some_mem hgs)
            have h2 : sizeOf sf < sizeOf (JVal.obj sf) := by simp
            omega
          | null =>
            rw [mergeStep.eq_def]
            exact wfFields_mem hwfs (mapGet_eq_some_mem hgs)
          | bool b =>
            rw [mergeStep.eq_def]
            exact wfFields_mem hwfs (mapGet_eq_some_mem hgs)
          | num m =>
            rw [mergeStep.eq_def]
            exact wfFields_mem hwfs (mapGet_eq_some_mem hgs)
          | str s' =>
            rw [mergeStep.eq_def]
            exact wfFields_mem hwfs (mapGet_eq_some_mem hgs)
          | arr xs =>
            rw [mergeStep.eq_def]
            exact wfFields_mem hwfs (mapGet_eq_some_mem hgs)
      | null =>
        rw [mergeStep.eq_def]
        exact wfFields_mem hwfs (mapGet_eq_some_mem hgs)
      | bool b =>
        rw [mergeStep.eq_def]
        exact wfFields_mem hwfs (mapGet_eq_some_mem hgs)
      | num m =>
        rw [mergeStep.eq_def]
        exact wfFields_mem hwfs (mapGet_eq_some_mem hgs)
      | str s' =>
        rw [mergeStep.eq_def]
        exact wfFields_mem hwfs (mapGet_eq_some_mem hgs)
      | arr xs =>
        rw [mergeStep.eq_def]
        exact wfFields_mem hwfs (mapGet_eq_some_mem hgs)

/-- Assigning a key its current value is a no-op (distinct keys). -/
theorem mapSet_self {l : List (String × α)} {k : String} {v : α}
    (hnd : (keysOf l).Nodup) (hg : mapGet l k = some v) :
    mapSet l k v = l := by
  unfold mapSet
  rw [if_pos (by simp [mapHas, hg])]
  have hval : ∀ p ∈ l, (if p.1 == k then (k, v) else p) = p := by
    intro p hp
    obtain ⟨a, b⟩ := p
    by_cases hpk : a = k
    · subst hpk
      have hm : mapGet l a = some b := mem_mapGet_of_nodup hnd hp
      rw [hg] at hm
      simp only [Option.some.injEq] at hm
      rw [if_pos (by simp)]
      rw [hm]
    · rw [if_neg (by simp [hpk])]
  conv_rhs => rw [← List.map_id l]
  exact List.map_congr_left hval

/-- Merging an object into itself is the identity. -/
theorem update_self_bounded : ∀ (n : Nat) (fs : List (String × JVal)),
    sizeOf fs ≤ n → wfKeys (JVal.obj fs) = true →
    updateObjectInPlace fs fs = fs := by
  intro n
  induction n with
  | zero =>
    intro fs hsz _
    exfalso
    cases fs <;> simp at hsz
  | succ n ih =>
    intro fs hsz hwf
    obtain ⟨hnd, hwff⟩ := wfKeys_obj hwf
    rw [updateObjectInPlace_eq]
    have hfil : fs.filter (fun p => mapHas fs p.1) = fs := by
      rw [List.filter_eq_self]
      intro p hp
      exact mapHas_iff_mem_keys.mpr (List.mem_map_of_mem Prod.fst hp)
    rw [hfil]
    suffices hgen : ∀ pairs : List (String × JVal), (∀ p ∈ pairs, p ∈ fs) →
        applySourcePairs fs pairs = fs by
      exact hgen fs (fun p hp => hp)
    intro pairs
    induction pairs with
    | nil => intro _; rw [applySourcePairs_nil]
    | cons p rest ihp =>
      intro hsubp
      obtain ⟨k, v⟩ := p
      rw [applySourcePairs_cons]
      have hmemp : (k, v) ∈ fs := hsubp (k, v) (List.mem_cons_self _ _)
      have hgk : mapGet fs k = some v := mem_mapGet_of_nodup hnd hmemp
      have hstep : mergeStep v (mapGet fs k) = v := by
        rw [hgk]
        cases v with
        | obj sf =>
          rw [mergeStep_obj_obj]
          congr 1
          apply ih sf ?_ (wfFields_mem hwff hmemp)
          have h1 := sizeOf_val_lt_of_mem hmemp
          have h2 : sizeOf sf < sizeOf (JVal.obj sf) := by simp
          omega
        | null => rw [mergeStep.eq_def]
        | bool b => rw [mergeStep.eq_def]
        | num m => rw [mergeStep.eq_def]
        | str s' => rw [mergeStep.eq_def]
        | arr xs => rw [mergeStep.eq_def]
      rw [hstep, mapSet_self hnd hgk]
      exact ihp (fun q hq => hsubp q (List.mem_cons_of_mem _ hq))

theorem mergeStep_null (tv : Option JVal) :
    mergeStep JVal.null tv = JVal.null := by rw [mergeStep.eq_def]

theorem mergeStep_bool (b : Bool) (tv : Option JVal) :
    mergeStep (JVal.bool b) tv = JVal.bool b := by rw [mergeStep.eq_def]

theorem mergeStep_num (m : Int) (tv : Option JVal) :
    mergeStep (JVal.num m) tv = JVal.num m := by rw [mergeStep.eq_def]

theorem mergeStep_str (s' : String) (tv : Option JVal) :
    mergeStep (JVal.str s') tv = JVal.str s' := by rw [mergeStep.eq_def]

theorem mergeStep_arr (xs : List JVal) (tv : Option JVal) :
    mergeStep (JVal.arr xs) tv = JVal.arr xs := by rw [mergeStep.eq_def]

theorem mergeStep_obj_none (sf : List (String × JVal)) :
    mergeStep (JVal.obj sf) none = JVal.obj sf := by rw [mergeStep.eq_def]

theorem mergeStep_obj_null (sf : List (String × JVal)) :
    mergeStep (JVal.obj sf) (some JVal.null) = JVal.obj sf := by
  rw [mergeStep.eq_def]

theorem mergeStep_obj_bool (sf : List (String × JVal)) (b : Bool) :
    mergeStep (JVal.obj sf) (some (JVal.bool b)) = JVal.obj sf := by
  rw [mergeStep.eq_def]

theorem mergeStep_obj_num (sf : List (String × JVal)) (m : Int) :
    mergeStep (JVal.obj sf) (some (JVal.num m)) = JVal.obj sf := by
  rw [mergeStep.eq_def]

theorem mergeStep_obj_str (sf : List (String × JVal)) (s' : String) :
    mergeStep (JVal.obj sf) (some (JVal.str s')) = JVal.obj sf := by
  rw [mergeStep.eq_def]

theorem mergeStep_obj_arr (sf : List (String × JVal)) (xs : List JVal) :
    mergeStep (JVal.obj sf) (some (JVal.arr xs)) = JVal.obj sf := by
  rw [mergeStep.eq_def]

/-- The merge is idempotent: repeating it with the same source is a
no-op. -/
theorem update_idem_bounded : ∀ (n : Nat) (s t : List (String × JVal)),
    sizeOf s ≤ n → wfKeys (JVal.obj t) = true → wfKeys (JVal.obj s) = true →
    updateObjectInPlace (updateObjectInPlace t s) s = updateObjectInPlace t s := by
  intro n
  induction n with
  | zero =>
    intro s t hsz _ _
    exfalso
    cases s <;> simp at hsz
  | succ n ih =>
    intro s t hsz hwt hws
    obtain ⟨hndt, hwft⟩ := wfKeys_obj hwt
    obtain ⟨hnds, hwfs⟩ := wfKeys_obj hws
    have hndu : (keysOf (updateObjectInPlace t s)).Nodup := update_keys_nodup t s hndt
    conv_lhs => rw [updateObjectInPlace_eq]
    have hfil : (updateObjectInPlace t s).filter (fun p => mapHas s p.1) =
        updateObjectInPlace t s := by
      rw [List.filter_eq_self]
      intro p hp
      have hku : (mapGet (updateObjectInPlace t s) p.1).isSome :=
        mapGet_isSome_iff.mpr (List.mem_map_of_mem Prod.fst hp)
      rw [mapGet_update t s p.1 hnds] at hku
      cases hgs : mapGet s p.1 with
      | none => rw [hgs] at hku; simp at hku
      | some sv => simp [mapHas, hgs]
    rw [hfil]
    suffices hgen : ∀ pairs : List (String × JVal), (∀ p ∈ pairs, p ∈ s) →
        applySourcePairs (updateObjectInPlace t s) pairs =
          updateObjectInPlace t s by
      exact hgen s (fun p hp => hp)
    intro pairs
    induction pairs with
    | nil => intro _; rw [applySourcePairs_nil]
    | cons p rest ihp =>
      intro hsubp
      obtain ⟨k, v⟩ := p
      rw [applySourcePairs_cons]
      have hmemp : (k, v) ∈ s := hsubp (k, v) (List.mem_cons_self _ _)
      have hgs : mapGet s k = some v := mem_mapGet_of_nodup hnds hmemp
      have hgu : mapGet (updateObjectInPlace t s) k =
          some (mergeStep v (mapGet t k)) := by
        rw [mapGet_update t s k hnds, hgs]
      have hsf_wf : ∀ sf, v = JVal.obj sf → wfKeys (JVal.obj sf) = true := by
        intro sf he
        exact he ▸ wfFields_mem hwfs hmemp
      have hsf_sz : ∀ sf, v = JVal.obj sf → sizeOf sf ≤ n := by
        intro sf he
        have h1 := sizeOf_val_lt_of_mem hmemp
        rw [he] at h1
        have h2 : sizeOf sf < sizeOf (JVal.obj sf) := by simp
        omega
      have hself : ∀ sf, v = JVal.obj sf →
          updateObjectInPlace sf sf = sf := by
        intro sf he
        exact update_self_bounded n sf (hsf_sz sf he) (hsf_wf sf he)
      have hstep : mergeStep v (mapGet (updateObjectInPlace t s) k) =
          mergeStep v (mapGet t k) := by
        rw [hgu]
        cases v with
        | obj sf =>
          cases hgt : mapGet t k with
          | none =>
            rw [mergeStep_obj_none, mergeStep_obj_obj, hself sf rfl]
          | some tv =>
            cases tv with
            | obj tf =>
              rw [mergeStep_obj_obj, mergeStep_obj_obj]
              congr 1
              exact ih sf tf (hsf_sz sf rfl)
                (wfFields_mem hwft (mapGet_eq_some_mem hgt)) (hsf_wf sf rfl)
            | null =>
              rw [mergeStep_obj_null, mergeStep_obj_obj, hself sf rfl]
            | bool b =>
              rw [mergeStep_obj_bool, mergeStep_obj_obj, hself sf rfl]
            | num m =>
              rw [mergeStep_obj_num, mergeStep_obj_obj, hself sf rfl]
            | str s' =>
              rw [mergeStep_obj_str, mergeStep_obj_obj, hself sf rfl]
            | arr xs =>
              rw [mergeStep_obj_arr, mergeStep_obj_obj, hself sf rfl]
        | null => simp only [mergeStep_null]
        | bool b => simp only [mergeStep_bool]
        | num m => simp only [mergeStep_num]
        | str s' => simp only [mergeStep_str]
        | arr xs => simp only [mergeStep_arr]
      rw [hstep, mapSet_self hndu hgu]
      exact ihp (fun q hq => hsubp q (List.mem_cons_of_mem _ hq))

/-- C3: for every live object and freshly parsed tree (well-formed: JS
objects and parsed TOML tables have distinct keys at every level), the
merge leaves the target structurally equal to the source — equal normal
forms: every target key absent from the source is deleted, keys whose old
and new values are both non-array objects are merged recursively, all
other keys are overwritten — and applying the merge again with the same
source leaves the result unchanged (idempotence). -/
theorem c3_update_structural_and_idempotent (t s : List (String × JVal))
    (ht : wfKeys (JVal.obj t) = true) (hs : wfKeys (JVal.obj s) = true) :
    normJ (JVal.obj (updateObjectInPlace t s)) = normJ (JVal.obj s) ∧
    updateObjectInPlace (updateObjectInPlace t s) s = updateObjectInPlace t s :=
  ⟨update_normEq_bounded (sizeOf s) s t le_rfl ht hs,
   update_idem_bounded (sizeOf s) s t le_rfl ht hs⟩

/-- Witness for C3 at the spec's P7 example: live `{a:1, b:{c:2}}` reloaded
with `{a:1, b:{c:3}}`. -/
theorem c3_witness :
    normJ (JVal.obj (updateObjectInPlace
      [("a", JVal.num 1), ("b", JVal.obj [("c", JVal.num 2)])]
      [("a", JVal.num 1), ("b", JVal.obj [("c", JVal.num 3)])])) =
      normJ (JVal.obj [("a", JVal.num 1), ("b", JVal.obj [("c", JVal.num 3)])]) ∧
    updateObjectInPlace
      (updateObjectInPlace
        [("a", JVal.num 1), ("b", JVal.obj [("c", JVal.num 2)])]
        [("a", JVal.num 1), ("b", JVal.obj [("c", JVal.num 3)])])
      [("a", JVal.num 1), ("b", JVal.obj [("c", JVal.num 3)])] =
      updateObjectInPlace
        [("a", JVal.num 1), ("b", JVal.obj [("c", JVal.num 2)])]
        [("a", JVal.num 1), ("b", JVal.obj [("c", JVal.num 3)])] :=
  c3_update_structural_and_idempotent
    [("a", JVal.num 1), ("b", JVal.obj [("c", JVal.num 2)])]
    [("a", JVal.num 1), ("b", JVal.obj [("c", JVal.num 3)])]
    (by simp [wfKeys, wfFields, keysOf]) (by simp [wfKeys, wfFields, keysOf])

end Toledo
